import Mathlib

/-!
Verification of the ORShuffle + distributed samplesort core
(`src/enclave/orshuffle.c`, `src/enclave/nonoblivious.c`) against its
natural-language specification.

Machine integers (`size_t`, `uint32_t`, `uint64_t`) are modelled as `Nat`
with explicit reduction modulo `2 ^ 64` (resp. `2 ^ 32`) at the points
where the C code can wrap.  Record arrays are modelled as total functions
`Nat → α` (C pointers with explicit base offsets); in-place mutation is
explicit state passing.
-/

/-- One more than the largest `size_t` value: `2 ^ 64`. -/
def M64 : Nat := 2 ^ 64

/-- One more than the largest `uint32_t` value: `2 ^ 32`. -/
def M32 : Nat := 2 ^ 32

/-- Wrapping `size_t` subtraction `a - b` (two's complement, modulo `2 ^ 64`),
as performed by C on unsigned operands. -/
def sizeSub (a b : Nat) : Nat := (a % M64 + (M64 - b % M64)) % M64

theorem M64_eq : M64 = 18446744073709551616 := by norm_num [M64]

theorem sizeSub_of_le {a b : Nat} (hb : b ≤ a) (ha : a < M64) :
    sizeSub a b = a - b := by
  have hbM : b < M64 := lt_of_le_of_lt hb ha
  unfold sizeSub
  rw [Nat.mod_eq_of_lt ha, Nat.mod_eq_of_lt hbM, M64_eq] at *
  omega

/-- Modelled from the spec: a record (`elem_t`, whose header `common/elem_t.h`
is not among the sources) carries a 64-bit `key`, a 64-bit `orp_id` and an
opaque payload, here folded into a single `Nat` tag. -/
structure Elem where
  key : Nat
  orp_id : Nat
  payload : Nat
  deriving DecidableEq, Repr

/-- Three-valued sign of an integer. -/
def isign (d : Int) : Int := if 0 < d then 1 else if d < 0 then -1 else 0

/-- Embedding of `mergesort_comparator` (nonoblivious.c:23-29):
`(comp_key << 1) + comp_orp_id` where each comparand is
`(a > b) - (a < b)` on the respective 64-bit field. -/
def mergesort_comparator (a b : Elem) : Int :=
  ((if a.key > b.key then (1 : Int) else 0) - (if a.key < b.key then (1 : Int) else 0)) * 2
    + ((if a.orp_id > b.orp_id then (1 : Int) else 0)
        - (if a.orp_id < b.orp_id then (1 : Int) else 0))

/-- Strict lexicographic order on the comparison fields `(key, orp_id)`. -/
def elemLt (a b : Elem) : Prop :=
  a.key < b.key ∨ (a.key = b.key ∧ a.orp_id < b.orp_id)

instance (a b : Elem) : Decidable (elemLt a b) := by
  unfold elemLt; infer_instance

/-- C9: `mergesort_comparator` equals
`sign(key_a - key_b) * 2 + sign(orp_id_a - orp_id_b)` (no overflow occurs:
each summand lies in `[-1,1]` before the shift), its sign is the sign of the
lexicographic comparison of `(key, orp_id)`, and it is zero exactly when the
two records agree on both comparison fields. -/
theorem mergesort_comparator_spec (a b : Elem) :
    mergesort_comparator a b
        = isign ((a.key : Int) - (b.key : Int)) * 2
            + isign ((a.orp_id : Int) - (b.orp_id : Int))
      ∧ (0 < mergesort_comparator a b ↔ elemLt b a)
      ∧ (mergesort_comparator a b < 0 ↔ elemLt a b)
      ∧ (mergesort_comparator a b = 0 ↔ (a.key = b.key ∧ a.orp_id = b.orp_id)) := by
  unfold mergesort_comparator isign elemLt
  split_ifs <;> omega

/- ### The ORP-id assignment iter-task (orshuffle.c:200-236, 272-295) -/

/-- Overwrite the `orp_id` of the record at index `j` with a fresh random
64-bit value drawn from the stream `rnd` (models `rand_read(&arr[j].orp_id, 8)`). -/
def setOrpId (rnd : Nat → Nat) (arr : Nat → Elem) (j : Nat) : Nat → Elem :=
  Function.update arr j { arr j with orp_id := rnd j % M64 }

/-- One shard of `assign_random_id` (orshuffle.c:209-236): writes fresh
`orp_id`s to indices `[i * length / num_threads, (i + 1) * length / num_threads)`. -/
def assign_random_id (rnd : Nat → Nat) (length num_threads : Nat)
    (arr : Nat → Elem) (i : Nat) : Nat → Elem :=
  let start := i * length / num_threads
  let stop := (i + 1) * length / num_threads
  (List.range (stop - start)).foldl (fun a k => setOrpId rnd a (start + k)) arr

/-- The whole iter-task: shards `i ∈ [0, count)` of `assign_random_id`.
Modelled from the spec: the task-pool iter dispatch (`THREAD_WORK_ITER`,
whose implementation is not among the sources) runs `func(args, i)` once for
each `i ∈ [0, count)`; shards here touch disjoint ranges, so sequential
composition is faithful. -/
def assignRandomIdTask (rnd : Nat → Nat) (length count num_threads : Nat)
    (arr : Nat → Elem) : Nat → Elem :=
  (List.range count).foldl (fun a i => assign_random_id rnd length num_threads a i) arr

/-- The ORP-id phase exactly as `orshuffle_sort` invokes it
(orshuffle.c:272-290): the argument struct is built with `.length = 0` and
`.start_idx = length`, and `.count = num_threads`. -/
def orshuffleSortIdPhase (rnd : Nat → Nat) (length num_threads : Nat)
    (arr : Nat → Elem) : Nat → Elem :=
  assignRandomIdTask rnd 0 num_threads num_threads arr

theorem foldl_fixed {β : Type} {f : (Nat → Elem) → β → Nat → Elem}
    (h : ∀ a x, f a x = a) (a : Nat → Elem) (l : List β) : l.foldl f a = a := by
  induction l generalizing a with
  | nil => rfl
  | cons x xs ih => rw [List.foldl_cons, h, ih]

/-- C2 (code_bug witness): the ORP-id phase as invoked by `orshuffle_sort`
assigns nothing: because the struct is built with `.length = 0`, every shard's
range `[i·0/T, (i+1)·0/T)` is empty, so every record keeps its old `orp_id`
(indeed the whole array is untouched), for every thread count and randomness. -/
theorem orshuffle_sort_id_phase_is_noop (rnd : Nat → Nat) (length num_threads : Nat)
    (arr : Nat → Elem) (j : Nat) :
    orshuffleSortIdPhase rnd length num_threads arr j = arr j := by
  unfold orshuffleSortIdPhase assignRandomIdTask
  rw [foldl_fixed]
  intro a i
  unfold assign_random_id
  simp

/- ### First-error publication in iter-tasks (C8) -/

/-- Error publication in `assign_random_id` (orshuffle.c:230-235):
`expected = 0; CAS(&args->ret, &expected, ret)` — publishes `err` into the
shared slot only if the slot still holds 0.  Returns the new slot value. -/
def iterTaskPublish (shared err : Int) : Int :=
  if err ≠ 0 then (if shared = 0 then err else shared) else shared

/-- Error publication in `mergesort_pass` (nonoblivious.c:122-125):
`__atomic_compare_exchange_n(&args->ret, &ret, 0, ...)` — the expected value
is the local error `ret` and the desired value is `0`, so the slot is set to 0
when it already equals `err`, and is left unchanged otherwise. -/
def mergesortPassPublish (shared err : Int) : Int :=
  if err ≠ 0 then (if shared = err then 0 else shared) else shared

/-- C8 (code_bug witness): when a `mergesort_pass` shard fails with status 12
(ENOMEM) and the shared `ret` slot holds its initial 0, the slot still holds 0
afterwards — the error is never published and `mergesort` returns 0 — whereas
the `assign_random_id` publication (the pattern the spec describes) would
store 12. -/
theorem mergesort_pass_publish_loses_error :
    mergesortPassPublish 0 12 = 0
      ∧ iterTaskPublish 0 12 = 12
      ∧ mergesortPassPublish 0 12 ≠ iterTaskPublish 0 12 := by
  refine ⟨by decide, by decide, by decide⟩

/- ### Distributed sample partition shares (C7) -/

/-- Per-worker share as the code computes it (nonoblivious.c:475-477):
`total_length * (r + 1) / W - total_length * r / W` with C integer (floor)
division. -/
def src_local_length (total_length world_size world_rank : Nat) : Nat :=
  total_length * (world_rank + 1) / world_size
    - total_length * world_rank / world_size

/-- The share as the spec's words define it:
`⌈(r+1)·N/W⌉ − ⌈r·N/W⌉` (ceiling division).  Stated only to be compared
against `src_local_length`. -/
def specCeilShare (total_length world_size world_rank : Nat) : Nat :=
  (total_length * (world_rank + 1) + world_size - 1) / world_size
    - (total_length * world_rank + world_size - 1) / world_size

/-- C7 counterexample: for `N = 5`, `W = 2`, the code's floor-based share of
worker 0 is 2, but the spec's ceiling formula gives 3. -/
theorem src_local_length_ne_ceil_share :
    src_local_length 5 2 0 = 2 ∧ specCeilShare 5 2 0 = 3
      ∧ src_local_length 5 2 0 ≠ specCeilShare 5 2 0 := by
  refine ⟨by decide, by decide, by decide⟩

/-- The receive chunk size the code posts (nonoblivious.c:522-523, 575-576):
`MIN(src_local_length - num_received, SAMPLE_PARTITION_BUF_SIZE)` with
wrapping `size_t` subtraction. -/
def elemsToRecv (src num : Nat) : Nat := min (sizeSub src num) 512

/-- The receive side of the sample-partition request loop
(nonoblivious.c:560-618, receive branch): each completed receive delivers
`d ≤ elems_to_recv` records (the posted buffer bounds the count) and the
request is reposted while `elems_to_recv > 0`.  `none` models a delivery that
the posted requests cannot produce. -/
def recvRun (src : Nat) : Nat → List Nat → Option Nat
  | num, [] => some num
  | num, d :: ds =>
      if elemsToRecv src num = 0 then none
      else if d ≤ elemsToRecv src num then recvRun src (num + d) ds
      else none

theorem recvRun_le {src : Nat} (hsrc : src < M64) :
    ∀ (ds : List Nat) (num num' : Nat), num ≤ src →
      recvRun src num ds = some num' → num' ≤ src := by
  intro ds
  induction ds with
  | nil => intro num num' h hrun; cases hrun; exact h
  | cons d ds ih =>
      intro num num' h hrun
      unfold recvRun at hrun
      by_cases h0 : elemsToRecv src num = 0
      · simp [h0] at hrun
      · rw [if_neg h0] at hrun
        by_cases hd : d ≤ elemsToRecv src num
        · rw [if_pos hd] at hrun
          refine ih (num + d) num' ?_ hrun
          have := sizeSub_of_le h hsrc
          unfold elemsToRecv at hd
          omega
        · rw [if_neg hd] at hrun; cases hrun

/-- C7 (amended): on every successful termination of the receive loop — the
receive request retires only when the posted chunk size reaches 0 — the
final `num_received` equals the worker's share `src_local_length`, computed
with floor division; moreover the floor-based shares of all workers
partition the total length exactly. -/
theorem sample_partition_receives_share (N W r num0 numF : Nat) (ds : List Nat)
    (hW : 0 < W) (hN : N * (r + 1) < M64)
    (hinit : num0 ≤ src_local_length N W r)
    (hrun : recvRun (src_local_length N W r) num0 ds = some numF)
    (hdone : elemsToRecv (src_local_length N W r) numF = 0) :
    numF = src_local_length N W r
      ∧ (Finset.range W).sum (fun i => src_local_length N W i) = N := by
  have hsrc : src_local_length N W r < M64 := by
    unfold src_local_length
    exact lt_of_le_of_lt (le_trans (Nat.sub_le _ _) (Nat.div_le_self _ _)) hN
  constructor
  · have hle := recvRun_le hsrc ds num0 numF hinit hrun
    unfold elemsToRecv at hdone
    rw [sizeSub_of_le hle hsrc] at hdone
    omega
  · have key : ∀ w, (Finset.range w).sum (fun i => src_local_length N W i)
        = N * w / W := by
      intro w
      induction w with
      | zero => simp
      | succ n ihn =>
          rw [Finset.sum_range_succ, ihn]
          unfold src_local_length
          have hmono : N * n / W ≤ N * (n + 1) / W :=
            Nat.div_le_div_right (Nat.mul_le_mul_left _ (by omega))
          omega
    rw [key W, Nat.mul_div_cancel _ hW]

/-- C7 witness input check: with `N = 5`, `W = 2`, worker 0 starts having
copied 1 own record, receives one chunk of 1 record, and the loop retires
with `num_received = 2 = src_local_length` (the floor share). -/
theorem sample_partition_receives_share_witness :
    (0 < 2 ∧ 5 * (0 + 1) < M64 ∧ 1 ≤ src_local_length 5 2 0
        ∧ recvRun (src_local_length 5 2 0) 1 [1] = some 2
        ∧ elemsToRecv (src_local_length 5 2 0) 2 = 0)
      ∧ (2 = src_local_length 5 2 0
          ∧ (Finset.range 2).sum (fun i => src_local_length 5 2 i) = 5) := by
  refine ⟨⟨by decide, by decide, by decide, by decide, by decide⟩, ?_⟩
  exact sample_partition_receives_share 5 2 0 1 2 [1] (by decide) (by decide)
    (by decide) (by decide) (by decide)

/- ### The marking phase of shuffle (C3) -/

/-- One streaming pass of the marking loop (orshuffle.c:150-174), processing
`count` remaining positions starting at local index `j` of the region based
at `base`.  `coins` is the stream of random 32-bit words (orshuffle.c draws
them in batches of `MARK_COINS = 2048`, which only affects call granularity,
not per-element values); `ci` is the index of the first unconsumed coin.
A position is marked when `((uint64_t) coin * total_left) >> 32` is at least
the wrapping `size_t` difference `num_to_mark - marked_so_far`; the marked
flag and the running count are recorded.  Returns the updated `marked` and
`marked_prefix_sums` maps and the final `marked_so_far`. -/
def markLoop (coins : Nat → Nat) (numToMark : Nat) :
    Nat → Nat → Nat → Nat → (Nat → Bool) → (Nat → Nat) → Nat → Nat →
      (Nat → Bool) × (Nat → Nat) × Nat
  | 0, _, _, _, marked, psums, _, msf => (marked, psums, msf)
  | count + 1, j, base, ci, marked, psums, totalLeft, msf =>
      let c := coins (ci + j) % M32
      let curMarked := decide (c * totalLeft % M64 / M32 ≥ sizeSub numToMark msf)
      let msf' := msf + (if curMarked then 1 else 0)
      markLoop coins numToMark count (j + 1) base ci
        (Function.update marked (base + j) curMarked)
        (Function.update psums (base + j) msf')
        (totalLeft - 1) msf'

/-- The marking phase of `shuffle` for a region of `length` elements based at
`base`: marks with `num_to_mark = length / 2`, starting from
`total_left = length`, `marked_so_far = 0`. -/
def markPhase (coins : Nat → Nat) (length : Nat) (base ci : Nat)
    (marked : Nat → Bool) (psums : Nat → Nat) :
    (Nat → Bool) × (Nat → Nat) × Nat :=
  markLoop coins (length / 2) length 0 base ci marked psums length 0

/-- C3 (code_bug witness): the claim (and the code's own comment) says the
marking phase marks exactly `L/2` positions for every coin outcome; but with
`L = 4` and all four coin words zero the selection condition
`(coin·total_left) >> 32 ≥ num_to_mark − marked_so_far` never fires, so 0 of
the 4 positions are marked, and with all four coin words at `2^32 − 1` it
fires three times, so 3 positions are marked. -/
theorem mark_phase_not_exactly_half :
    (markPhase (fun _ => 0) 4 0 0 (fun _ => false) (fun _ => 0)).2.2 = 0
      ∧ (markPhase (fun _ => 4294967295) 4 0 0 (fun _ => false) (fun _ => 0)).2.2 = 3 := by
  constructor <;> decide

/- ### The oblivious shuffle: swapping, compaction, recursion
     (orshuffle.c:48-198) -/

/-- Modelled from the spec: liboblivious's `o_memswap(&a, &b, len, cond)`
(the `cmov_swap` primitive of spec 4.1, not among the sources) swaps the two
records exactly when `cond` holds.  Here it acts on a whole array at the two
indices `i` and `j`. -/
def o_memswap (arr : Nat → α) (i j : Nat) (cond : Bool) : Nat → α :=
  fun k =>
    if k = i then (if cond then arr j else arr i)
    else if k = j then (if cond then arr i else arr j)
    else arr k

/-- The swap condition of iteration `i` of `swap_local_range`
(orshuffle.c:54-59): `s != (i >= (offset + left_marked_count) % (length/2))`
with `s = (offset % (length/2) + left_marked_count >= length/2)
!= (offset >= length/2)`; the two `size_t` sums that can wrap are reduced
mod `M64`. -/
def slrCond (length offset lmc i : Nat) : Bool :=
  (decide ((offset % (length / 2) + lmc) % M64 ≥ length / 2)
      != decide (offset ≥ length / 2))
    != decide (i ≥ (offset + lmc) % M64 % (length / 2))

/-- Embedding of `swap_local_range` (orshuffle.c:50-66) for the region based
at `base`: pairs local indices `i` and `i + length/2` for
`i ∈ [0, length/2)` and conditionally swaps each pair.  Also returns, in
loop order, the pairs of absolute indices handed to `o_memswap` (the memory
trace of the loop). -/
def swap_local_range {α : Type} (arr : Nat → α) (base length offset lmc : Nat) :
    (Nat → α) × List (Nat × Nat) :=
  (((List.range (length / 2)).foldl
      (fun a i =>
        o_memswap a (base + i) (base + i + length / 2)
          (slrCond length offset lmc i)) arr),
   (List.range (length / 2)).map (fun i => (base + i, base + i + length / 2)))

/-- The `left_marked_count` computation of `compact` (orshuffle.c:96-104):
`marked_prefix_sums[length/2 - 1] - marked_prefix_sums[0] + marked[0]` with
wrapping `size_t` arithmetic, read at the absolute positions of the region
based at `base`. -/
def lmcOf (marked : Nat → Bool) (psums : Nat → Nat) (base length : Nat) : Nat :=
  (sizeSub (psums (base + length / 2 - 1)) (psums base)
    + (if marked base then 1 else 0)) % M64

/-- Embedding of `compact` (orshuffle.c:80-129).  `fuel` bounds the
recursion depth (the C recursion halves `length`, so any `fuel` with
`length ≤ 2 ^ fuel` is exact); the first component is the array after
compaction, the second the sequence of index pairs handed to `o_memswap` in
execution order.  `marked` and `marked_prefix_sums` are read at the same
absolute positions as the C pointer arithmetic reads them. -/
def compact {α : Type} : Nat → (Nat → α) → (Nat → Bool) → (Nat → Nat) → Nat → Nat → Nat →
    (Nat → α) × List (Nat × Nat)
  | 0, arr, _, _, _, _, _ => (arr, [])
  | fuel + 1, arr, marked, psums, base, length, offset =>
      if length < 2 then (arr, [])
      else if length = 2 then
        let cond := ((!marked base && marked (base + 1)) != decide (offset ≠ 0))
        (o_memswap arr base (base + 1) cond, [(base, base + 1)])
      else
        let lmc := lmcOf marked psums base length
        let lres := compact fuel arr marked psums base (length / 2)
          (offset % (length / 2))
        let rres := compact fuel lres.1 marked psums (base + length / 2)
          (length / 2) ((offset + lmc) % M64 % (length / 2))
        let sres := swap_local_range rres.1 base length offset lmc
        (sres.1, lres.2 ++ rres.2 ++ sres.2)

/-- Result of a run of `shuffle`: the array, the marker and prefix-sum maps,
the next unconsumed indices into the random-bit and random-coin streams, and
the trace of index pairs handed to `o_memswap`. -/
structure ShuffleResult (α : Type) where
  arr : Nat → α
  marked : Nat → Bool
  psums : Nat → Nat
  bi : Nat
  ci : Nat
  trace : List (Nat × Nat)

/-- Embedding of `shuffle` (orshuffle.c:131-198) on the region
`[base, base + length)`.  Randomness is split into the stream `bits` of
`rand_bit` draws (consumed at the two-element leaves) and the stream `coins`
of 32-bit `rand_read` words (consumed by the marking phase); `bi` and `ci`
are the next unconsumed positions.  `fuel` bounds the recursion depth as in
`compact`; the nested `compact` runs with fuel `length`, which always
suffices since `length ≤ 2 ^ length`. -/
def shuffle {α : Type} : Nat → (Nat → Bool) → (Nat → Nat) → Nat → Nat → (Nat → α) →
    (Nat → Bool) → (Nat → Nat) → Nat → Nat → ShuffleResult α
  | 0, _, _, _, _, arr, marked, psums, bi, ci =>
      ⟨arr, marked, psums, bi, ci, []⟩
  | fuel + 1, bits, coins, base, length, arr, marked, psums, bi, ci =>
      if length < 2 then ⟨arr, marked, psums, bi, ci, []⟩
      else if length = 2 then
        ⟨o_memswap arr base (base + 1) (bits bi), marked, psums, bi + 1, ci,
          [(base, base + 1)]⟩
      else
        let mk := markPhase coins length base ci marked psums
        let cp := compact length arr mk.1 mk.2.1 base length 0
        let s1 := shuffle fuel bits coins base (length / 2) cp.1 mk.1 mk.2.1
          bi (ci + length)
        let s2 := shuffle fuel bits coins (base + length / 2) (length / 2)
          s1.arr s1.marked s1.psums s1.bi s1.ci
        ⟨s2.arr, s2.marked, s2.psums, s2.bi, s2.ci,
          cp.2 ++ s1.trace ++ s2.trace⟩

/-- Multiset of the records stored at positions `[base, base + len)`. -/
def elems (f : Nat → α) (base len : Nat) : Multiset α :=
  ((List.range len).map (fun i => f (base + i)) : Multiset α)

/-- Number of marked positions among the first `k` local indices of the
region based at `base`. -/
def countMarked (marked : Nat → Bool) (base k : Nat) : Nat :=
  ((List.range k).filter (fun i => marked (base + i))).length

/-- Local indices (in increasing order) of the marked positions of the
region `[base, base + len)`. -/
def markedIdxs (marked : Nat → Bool) (base len : Nat) : List Nat :=
  (List.range len).filter (fun i => marked (base + i))

/-- Local indices (in increasing order) of the unmarked positions. -/
def unmarkedIdxs (marked : Nat → Bool) (base len : Nat) : List Nat :=
  (List.range len).filter (fun i => !marked (base + i))

/-- The prefix-sum map holds, at each position of the region, `δ` plus the
number of marked positions up to and including it (`δ` is the count
contributed by positions below `base`, which cancels in every difference the
code takes). -/
def ConsistentFrom (marked : Nat → Bool) (psums : Nat → Nat)
    (base len δ : Nat) : Prop :=
  ∀ i < len, psums (base + i) = δ + countMarked marked base (i + 1)

/- ### Pointwise evaluation of the swap loop -/

theorem o_memswap_apply {α : Type} (arr : Nat → α) (i j k : Nat) (c : Bool) :
    o_memswap arr i j c k
      = if k = i then (if c then arr j else arr i)
        else if k = j then (if c then arr i else arr j)
        else arr k := rfl

theorem foldSwap_eval {α : Type} (cond : Nat → Bool) (base h : Nat) :
    ∀ (p : Nat), p ≤ h → ∀ (arr : Nat → α) (k : Nat),
      ((List.range p).foldl
          (fun a i => o_memswap a (base + i) (base + i + h) (cond i)) arr) k
        = if base ≤ k ∧ k < base + p then
            (if cond (k - base) then arr (k + h) else arr k)
          else if base + h ≤ k ∧ k < base + h + p then
            (if cond (k - base - h) then arr (k - h) else arr k)
          else arr k := by
  intro p
  induction p with
  | zero =>
      intro _ arr k
      simp only [List.range_zero, List.foldl_nil]
      rw [if_neg (by omega), if_neg (by omega)]
  | succ p ih =>
      intro hp arr k
      rw [List.range_succ, List.foldl_append, List.foldl_cons, List.foldl_nil]
      have hF : ∀ k', ((List.range p).foldl
          (fun a i => o_memswap a (base + i) (base + i + h) (cond i)) arr) k'
          = if base ≤ k' ∧ k' < base + p then
              (if cond (k' - base) then arr (k' + h) else arr k')
            else if base + h ≤ k' ∧ k' < base + h + p then
              (if cond (k' - base - h) then arr (k' - h) else arr k')
            else arr k' := fun k' => ih (by omega) arr k'
      rw [o_memswap_apply]
      by_cases hk1 : k = base + p
      · subst hk1
        rw [if_pos rfl, hF (base + p + h), hF (base + p)]
        have e1 : base + p - base = p := by omega
        rw [e1]
        split_ifs <;> first | rfl | omega
      · by_cases hk2 : k = base + p + h
        · subst hk2
          rw [if_neg hk1, if_pos rfl, hF (base + p), hF (base + p + h)]
          have e1 : base + p + h - base - h = p := by omega
          have e2 : base + p + h - h = base + p := by omega
          rw [e1, e2]
          split_ifs <;> first | rfl | omega
        · rw [if_neg hk1, if_neg hk2, hF k]
          split_ifs <;> first | rfl | omega

theorem swap_local_range_eval {α : Type} (arr : Nat → α)
    (base length offset lmc k : Nat) :
    (swap_local_range arr base length offset lmc).1 k
      = if base ≤ k ∧ k < base + length / 2 then
          (if slrCond length offset lmc (k - base) then arr (k + length / 2)
            else arr k)
        else if base + length / 2 ≤ k ∧ k < base + length / 2 + length / 2 then
          (if slrCond length offset lmc (k - base - length / 2)
            then arr (k - length / 2) else arr k)
        else arr k :=
  foldSwap_eval (slrCond length offset lmc) base (length / 2) (length / 2)
    le_rfl arr k

/- ### Equation lemmas and frame lemma for compact -/

theorem compact_small {α : Type} (fuel : Nat) (arr : Nat → α)
    (marked : Nat → Bool) (psums : Nat → Nat) (base length offset : Nat)
    (h2 : length < 2) :
    compact (fuel + 1) arr marked psums base length offset = (arr, []) := by
  simp only [compact]
  rw [if_pos h2]

theorem compact_two {α : Type} (fuel : Nat) (arr : Nat → α)
    (marked : Nat → Bool) (psums : Nat → Nat) (base offset : Nat) :
    compact (fuel + 1) arr marked psums base 2 offset
      = (o_memswap arr base (base + 1)
          ((!marked base && marked (base + 1)) != decide (offset ≠ 0)),
         [(base, base + 1)]) := rfl

theorem compact_fst_main {α : Type} (fuel : Nat) (arr : Nat → α)
    (marked : Nat → Bool) (psums : Nat → Nat) (base length offset : Nat)
    (h2 : ¬length < 2) (h3 : length ≠ 2) :
    (compact (fuel + 1) arr marked psums base length offset).1
      = (swap_local_range
          (compact fuel
            (compact fuel arr marked psums base (length / 2)
              (offset % (length / 2))).1
            marked psums (base + length / 2) (length / 2)
            ((offset + lmcOf marked psums base length) % M64 % (length / 2))).1
          base length offset (lmcOf marked psums base length)).1 := by
  simp only [compact]
  rw [if_neg h2, if_neg h3]

theorem compact_snd_main {α : Type} (fuel : Nat) (arr : Nat → α)
    (marked : Nat → Bool) (psums : Nat → Nat) (base length offset : Nat)
    (h2 : ¬length < 2) (h3 : length ≠ 2) :
    (compact (fuel + 1) arr marked psums base length offset).2
      = (compact fuel arr marked psums base (length / 2)
            (offset % (length / 2))).2
        ++ (compact fuel
            (compact fuel arr marked psums base (length / 2)
              (offset % (length / 2))).1
            marked psums (base + length / 2) (length / 2)
            ((offset + lmcOf marked psums base length) % M64 % (length / 2))).2
        ++ (List.range (length / 2)).map
            (fun i => (base + i, base + i + length / 2)) := by
  simp only [compact]
  rw [if_neg h2, if_neg h3]
  rfl

theorem compact_untouched {α : Type} :
    ∀ (fuel : Nat) (arr : Nat → α) (marked : Nat → Bool) (psums : Nat → Nat)
      (base length offset k : Nat), (k < base ∨ base + length ≤ k) →
      (compact fuel arr marked psums base length offset).1 k = arr k := by
  intro fuel
  induction fuel with
  | zero => intro arr marked psums base length offset k _; rfl
  | succ fuel ih =>
      intro arr marked psums base length offset k hk
      by_cases h2 : length < 2
      · rw [compact_small fuel arr marked psums base length offset h2]
      · by_cases h3 : length = 2
        · subst h3
          rw [compact_two]
          dsimp only
          rw [o_memswap_apply, if_neg (by omega), if_neg (by omega)]
        · have hhalf : length / 2 * 2 ≤ length := Nat.div_mul_le_self length 2
          rw [compact_fst_main fuel arr marked psums base length offset h2 h3]
          rw [swap_local_range_eval]
          rw [if_neg (by omega), if_neg (by omega)]
          rw [ih _ marked psums (base + length / 2) (length / 2) _ k
            (by omega)]
          exact ih _ marked psums base (length / 2) _ k (by omega)

/- ### Multiset preservation: conditional swaps are permutations -/

theorem elems_congr {α : Type} {f g : Nat → α} {base len : Nat}
    (h : ∀ i < len, f (base + i) = g (base + i)) :
    elems f base len = elems g base len := by
  unfold elems
  congr 1
  apply List.map_congr_left
  intro i hi
  exact h i (List.mem_range.mp hi)

theorem elems_split {α : Type} (f : Nat → α) (base a b : Nat) :
    elems f base (a + b) = elems f base a + elems f (base + a) b := by
  unfold elems
  rw [List.range_add, List.map_append, List.map_map]
  rw [← Multiset.coe_add]
  congr 2
  apply List.map_congr_left
  intro i _
  show f (base + (a + i)) = f (base + a + i)
  rw [Nat.add_assoc]

theorem swap_indices_multiset (i j base len : Nat)
    (hi : base ≤ i ∧ i < base + len) (hj : base ≤ j ∧ j < base + len) :
    (((List.range len).map (fun p => Equiv.swap i j (base + p))) : Multiset Nat)
      = ((List.range len).map (fun p => base + p) : Multiset Nat) := by
  have hinj : Function.Injective (fun p : Nat => Equiv.swap i j (base + p)) := by
    intro p q hpq
    have h' : Equiv.swap i j (base + p) = Equiv.swap i j (base + q) := hpq
    have h2 := (Equiv.swap i j).injective h'
    omega
  have hinj2 : Function.Injective (fun p : Nat => base + p) := by
    intro p q hpq
    have h' : base + p = base + q := hpq
    omega
  have hswap_mem : ∀ p < len, base ≤ Equiv.swap i j (base + p)
      ∧ Equiv.swap i j (base + p) < base + len := by
    intro p hp
    by_cases h1 : base + p = i
    · rw [h1, Equiv.swap_apply_left]; exact ⟨hj.1, hj.2⟩
    · by_cases h2 : base + p = j
      · rw [h2, Equiv.swap_apply_right]; exact ⟨hi.1, hi.2⟩
      · rw [Equiv.swap_apply_of_ne_of_ne h1 h2]; omega
  rw [(Multiset.Nodup.ext ?_ ?_)]
  · intro a
    simp only [Multiset.mem_coe, List.mem_map, List.mem_range]
    constructor
    · rintro ⟨p, hp, rfl⟩
      have hsw := hswap_mem p hp
      refine ⟨Equiv.swap i j (base + p) - base, by omega, ?_⟩
      show base + (Equiv.swap i j (base + p) - base) = Equiv.swap i j (base + p)
      omega
    · rintro ⟨p, hp, rfl⟩
      have hy := hswap_mem p hp
      refine ⟨Equiv.swap i j (base + p) - base, by omega, ?_⟩
      show Equiv.swap i j (base + (Equiv.swap i j (base + p) - base)) = base + p
      have he : base + (Equiv.swap i j (base + p) - base)
          = Equiv.swap i j (base + p) := by omega
      rw [he, Equiv.swap_apply_self]
  · exact Multiset.coe_nodup.mpr ((List.nodup_range len).map_on
      (fun p _ q _ h => hinj h))
  · exact Multiset.coe_nodup.mpr ((List.nodup_range len).map_on
      (fun p _ q _ h => hinj2 h))

theorem o_memswap_false {α : Type} (arr : Nat → α) (i j k : Nat) :
    o_memswap arr i j false k = arr k := by
  rw [o_memswap_apply]
  by_cases h1 : k = i
  · rw [if_pos h1, if_neg (by simp), h1]
  · rw [if_neg h1]
    by_cases h2 : k = j
    · rw [if_pos h2, if_neg (by simp), h2]
    · rw [if_neg h2]

theorem o_memswap_true {α : Type} (arr : Nat → α) (i j k : Nat) :
    o_memswap arr i j true k = arr (Equiv.swap i j k) := by
  rw [o_memswap_apply]
  by_cases h1 : k = i
  · rw [if_pos h1, if_pos rfl, h1, Equiv.swap_apply_left]
  · rw [if_neg h1]
    by_cases h2 : k = j
    · rw [if_pos h2, if_pos rfl, h2, Equiv.swap_apply_right]
    · rw [if_neg h2, Equiv.swap_apply_of_ne_of_ne h1 h2]

theorem elems_o_memswap {α : Type} (arr : Nat → α) (i j base len : Nat)
    (c : Bool) (hi : base ≤ i ∧ i < base + len) (hj : base ≤ j ∧ j < base + len) :
    elems (o_memswap arr i j c) base len = elems arr base len := by
  cases c
  · exact elems_congr (fun p _ => o_memswap_false arr i j (base + p))
  · have h1 : elems (o_memswap arr i j true) base len
        = ((List.range len).map (fun p => arr (Equiv.swap i j (base + p)))
            : Multiset α) := by
      unfold elems
      congr 1
      exact List.map_congr_left (fun p _ => o_memswap_true arr i j (base + p))
    rw [h1]
    have h2 : ((List.range len).map (fun p => arr (Equiv.swap i j (base + p)))
        : Multiset α)
        = Multiset.map arr (((List.range len).map
            (fun p => Equiv.swap i j (base + p))) : Multiset Nat) := by
      rw [Multiset.map_coe, List.map_map]
      rfl
    rw [h2, swap_indices_multiset i j base len hi hj]
    unfold elems
    rw [Multiset.map_coe, List.map_map]
    rfl

theorem elems_foldSwap {α : Type} (cond : Nat → Bool) (base h len : Nat)
    (hh : 2 * h ≤ len) :
    ∀ (l : List Nat) (arr : Nat → α), (∀ i ∈ l, i < h) →
      elems (l.foldl
          (fun a i => o_memswap a (base + i) (base + i + h) (cond i)) arr)
          base len
        = elems arr base len := by
  intro l
  induction l with
  | nil => intro arr _; rfl
  | cons i l ih =>
      intro arr hmem
      rw [List.foldl_cons]
      rw [ih _ (fun x hx => hmem x (List.mem_cons_of_mem i hx))]
      have hib : i < h := hmem i (List.mem_cons_self i l)
      exact elems_o_memswap arr (base + i) (base + i + h) base len _
        ⟨by omega, by omega⟩ ⟨by omega, by omega⟩

theorem elems_swap_local_range {α : Type} (arr : Nat → α)
    (base length offset lmc : Nat) :
    elems (swap_local_range arr base length offset lmc).1 base length
      = elems arr base length := by
  unfold swap_local_range
  exact elems_foldSwap _ base (length / 2) length
    (by have := Nat.div_mul_le_self length 2; omega)
    (List.range (length / 2)) arr (fun i hi => List.mem_range.mp hi)

theorem elems_split_at {α : Type} (f : Nat → α) (base len a : Nat) (ha : a ≤ len) :
    elems f base len = elems f base a + elems f (base + a) (len - a) := by
  have h : a + (len - a) = len := by omega
  calc elems f base len = elems f base (a + (len - a)) := by rw [h]
    _ = elems f base a + elems f (base + a) (len - a) := elems_split f base a _

theorem elems_eq_of_local_perm {α : Type} {f g : Nat → α} {base len b' l' : Nat}
    (hsub : base ≤ b' ∧ b' + l' ≤ base + len)
    (hout : ∀ k, (k < b' ∨ b' + l' ≤ k) → f k = g k)
    (hin : elems f b' l' = elems g b' l') :
    elems f base len = elems g base len := by
  rw [elems_split_at f base len (b' - base) (by omega),
    elems_split_at g base len (b' - base) (by omega)]
  have hb : base + (b' - base) = b' := by omega
  rw [hb]
  rw [elems_split_at f b' (len - (b' - base)) l' (by omega),
    elems_split_at g b' (len - (b' - base)) l' (by omega)]
  have p1 : elems f base (b' - base) = elems g base (b' - base) :=
    elems_congr (fun i hi => hout (base + i) (Or.inl (by omega)))
  have p3 : elems f (b' + l') (len - (b' - base) - l')
      = elems g (b' + l') (len - (b' - base) - l') :=
    elems_congr (fun i hi => hout (b' + l' + i) (Or.inr (by omega)))
  rw [p1, hin, p3]

theorem elems_compact {α : Type} :
    ∀ (fuel : Nat) (arr : Nat → α) (marked : Nat → Bool) (psums : Nat → Nat)
      (base length offset : Nat),
      elems (compact fuel arr marked psums base length offset).1 base length
        = elems arr base length := by
  intro fuel
  induction fuel with
  | zero => intro arr marked psums base length offset; rfl
  | succ fuel ih =>
      intro arr marked psums base length offset
      by_cases h2 : length < 2
      · rw [compact_small fuel arr marked psums base length offset h2]
      · by_cases h3 : length = 2
        · subst h3
          rw [compact_two]
          dsimp only
          exact elems_o_memswap arr base (base + 1) base 2 _
            ⟨le_rfl, by omega⟩ ⟨by omega, by omega⟩
        · have hhalf : length / 2 * 2 ≤ length := Nat.div_mul_le_self length 2
          have hpos : 0 < length / 2 := by omega
          rw [compact_fst_main fuel arr marked psums base length offset h2 h3]
          rw [elems_swap_local_range]
          have stepR : elems (compact fuel
              (compact fuel arr marked psums base (length / 2)
                (offset % (length / 2))).1
              marked psums (base + length / 2) (length / 2)
              ((offset + lmcOf marked psums base length) % M64
                % (length / 2))).1 base length
              = elems (compact fuel arr marked psums base (length / 2)
                  (offset % (length / 2))).1 base length :=
            elems_eq_of_local_perm ⟨by omega, by omega⟩
              (fun k hk => compact_untouched fuel _ marked psums
                (base + length / 2) (length / 2) _ k hk)
              (ih _ marked psums (base + length / 2) (length / 2) _)
          have stepL : elems (compact fuel arr marked psums base (length / 2)
              (offset % (length / 2))).1 base length
              = elems arr base length :=
            elems_eq_of_local_perm ⟨le_rfl, by omega⟩
              (fun k hk => compact_untouched fuel arr marked psums
                base (length / 2) _ k hk)
              (ih arr marked psums base (length / 2) _)
          rw [stepR, stepL]

theorem shuffle_two {α : Type} (fuel : Nat) (bits : Nat → Bool)
    (coins : Nat → Nat) (base : Nat) (arr : Nat → α) (marked : Nat → Bool)
    (psums : Nat → Nat) (bi ci : Nat) :
    shuffle (fuel + 1) bits coins base 2 arr marked psums bi ci
      = ⟨o_memswap arr base (base + 1) (bits bi), marked, psums, bi + 1, ci,
          [(base, base + 1)]⟩ := rfl

theorem shuffle_untouched {α : Type} :
    ∀ (fuel : Nat) (bits : Nat → Bool) (coins : Nat → Nat) (base length : Nat)
      (arr : Nat → α) (marked : Nat → Bool) (psums : Nat → Nat) (bi ci k : Nat),
      (k < base ∨ base + length ≤ k) →
      (shuffle fuel bits coins base length arr marked psums bi ci).arr k
        = arr k := by
  intro fuel
  induction fuel with
  | zero => intro bits coins base length arr marked psums bi ci k _; rfl
  | succ fuel ih =>
      intro bits coins base length arr marked psums bi ci k hk
      by_cases h2 : length < 2
      · simp only [shuffle]
        rw [if_pos h2]
      · by_cases h3 : length = 2
        · subst h3
          rw [shuffle_two]
          show o_memswap arr base (base + 1) (bits bi) k = arr k
          rw [o_memswap_apply, if_neg (by omega), if_neg (by omega)]
        · have hhalf : length / 2 * 2 ≤ length := Nat.div_mul_le_self length 2
          simp only [shuffle]
          rw [if_neg h2, if_neg h3]
          dsimp only
          rw [ih bits coins (base + length / 2) (length / 2) _ _ _ _ _ k
            (by omega)]
          rw [ih bits coins base (length / 2) _ _ _ _ _ k (by omega)]
          exact compact_untouched length arr _ _ base length 0 k hk

theorem elems_shuffle {α : Type} :
    ∀ (fuel : Nat) (bits : Nat → Bool) (coins : Nat → Nat) (base length : Nat)
      (arr : Nat → α) (marked : Nat → Bool) (psums : Nat → Nat) (bi ci : Nat),
      elems (shuffle fuel bits coins base length arr marked psums bi ci).arr
          base length
        = elems arr base length := by
  intro fuel
  induction fuel with
  | zero => intro bits coins base length arr marked psums bi ci; rfl
  | succ fuel ih =>
      intro bits coins base length arr marked psums bi ci
      by_cases h2 : length < 2
      · simp only [shuffle]
        rw [if_pos h2]
      · by_cases h3 : length = 2
        · subst h3
          rw [shuffle_two]
          exact elems_o_memswap arr base (base + 1) base 2 _
            ⟨le_rfl, by omega⟩ ⟨by omega, by omega⟩
        · have hhalf : length / 2 * 2 ≤ length := Nat.div_mul_le_self length 2
          have hpos : 0 < length / 2 := by omega
          simp only [shuffle]
          rw [if_neg h2, if_neg h3]
          dsimp only
          set mk := markPhase coins length base ci marked psums with hmk
          set cp := compact length arr mk.1 mk.2.1 base length 0 with hcp
          set s1 := shuffle fuel bits coins base (length / 2) cp.1 mk.1 mk.2.1
            bi (ci + length) with hs1
          have step2 : elems (shuffle fuel bits coins (base + length / 2)
              (length / 2) s1.arr s1.marked s1.psums s1.bi s1.ci).arr
              base length
              = elems s1.arr base length :=
            elems_eq_of_local_perm ⟨by omega, by omega⟩
              (fun k hk => shuffle_untouched fuel bits coins
                (base + length / 2) (length / 2) s1.arr s1.marked s1.psums
                s1.bi s1.ci k hk)
              (ih bits coins (base + length / 2) (length / 2) s1.arr s1.marked
                s1.psums s1.bi s1.ci)
          rw [step2]
          have step1 : elems s1.arr base length = elems cp.1 base length := by
            rw [hs1]
            exact elems_eq_of_local_perm ⟨le_rfl, by omega⟩
              (fun k hk => shuffle_untouched fuel bits coins base (length / 2)
                cp.1 mk.1 mk.2.1 bi (ci + length) k hk)
              (ih bits coins base (length / 2) cp.1 mk.1 mk.2.1 bi
                (ci + length))
          rw [step1, hcp]
          exact elems_compact length arr mk.1 mk.2.1 base length 0

/-- C10: whatever the marker and prefix-sum arrays hold (even inconsistent
values), whatever the offset and the random coins and bits, `compact` and
`shuffle` mutate the record region only through pairwise conditional swaps,
so the multiset of records in `[base, base + length)` is always preserved. -/
theorem compact_shuffle_permutation {α : Type} (fuel : Nat) (arr : Nat → α)
    (marked : Nat → Bool) (psums : Nat → Nat) (base length offset : Nat)
    (bits : Nat → Bool) (coins : Nat → Nat) (bi ci : Nat) :
    elems (compact fuel arr marked psums base length offset).1 base length
        = elems arr base length
      ∧ elems (shuffle fuel bits coins base length arr marked psums bi ci).arr
            base length
        = elems arr base length :=
  ⟨elems_compact fuel arr marked psums base length offset,
   elems_shuffle fuel bits coins base length arr marked psums bi ci⟩

/- ### The o_memswap trace is a function of the length alone (C5) -/

theorem shuffle_small {α : Type} (fuel : Nat) (bits : Nat → Bool)
    (coins : Nat → Nat) (base length : Nat) (arr : Nat → α)
    (marked : Nat → Bool) (psums : Nat → Nat) (bi ci : Nat)
    (h2 : length < 2) :
    shuffle (fuel + 1) bits coins base length arr marked psums bi ci
      = ⟨arr, marked, psums, bi, ci, []⟩ := by
  simp only [shuffle]
  rw [if_pos h2]

theorem compact_trace_eq {α β : Type} :
    ∀ (fuel base length : Nat) (arr1 : Nat → α) (m1 : Nat → Bool)
      (p1 : Nat → Nat) (o1 : Nat) (arr2 : Nat → β) (m2 : Nat → Bool)
      (p2 : Nat → Nat) (o2 : Nat),
      (compact fuel arr1 m1 p1 base length o1).2
        = (compact fuel arr2 m2 p2 base length o2).2 := by
  intro fuel
  induction fuel with
  | zero => intro base length arr1 m1 p1 o1 arr2 m2 p2 o2; rfl
  | succ fuel ih =>
      intro base length arr1 m1 p1 o1 arr2 m2 p2 o2
      by_cases h2 : length < 2
      · rw [compact_small fuel arr1 m1 p1 base length o1 h2,
          compact_small fuel arr2 m2 p2 base length o2 h2]
      · by_cases h3 : length = 2
        · subst h3
          rw [compact_two, compact_two]
        · rw [compact_snd_main fuel arr1 m1 p1 base length o1 h2 h3,
            compact_snd_main fuel arr2 m2 p2 base length o2 h2 h3]
          have hl := ih base (length / 2) arr1 m1 p1 (o1 % (length / 2))
            arr2 m2 p2 (o2 % (length / 2))
          have hr := ih (base + length / 2) (length / 2)
            (compact fuel arr1 m1 p1 base (length / 2) (o1 % (length / 2))).1
            m1 p1 ((o1 + lmcOf m1 p1 base length) % M64 % (length / 2))
            (compact fuel arr2 m2 p2 base (length / 2) (o2 % (length / 2))).1
            m2 p2 ((o2 + lmcOf m2 p2 base length) % M64 % (length / 2))
          rw [hl, hr]

theorem shuffle_trace_eq {α β : Type} :
    ∀ (fuel1 fuel2 base length : Nat),
      length ≤ 2 ^ fuel1 → length ≤ 2 ^ fuel2 →
      ∀ (bits1 : Nat → Bool) (coins1 : Nat → Nat) (arr1 : Nat → α)
        (m1 : Nat → Bool) (p1 : Nat → Nat) (bi1 ci1 : Nat)
        (bits2 : Nat → Bool) (coins2 : Nat → Nat) (arr2 : Nat → β)
        (m2 : Nat → Bool) (p2 : Nat → Nat) (bi2 ci2 : Nat),
        (shuffle fuel1 bits1 coins1 base length arr1 m1 p1 bi1 ci1).trace
          = (shuffle fuel2 bits2 coins2 base length arr2 m2 p2 bi2 ci2).trace := by
  intro fuel1
  induction fuel1 with
  | zero =>
      intro fuel2 base length hf1 hf2 bits1 coins1 arr1 m1 p1 bi1 ci1
        bits2 coins2 arr2 m2 p2 bi2 ci2
      have h2 : length < 2 := by
        have : (2 : Nat) ^ 0 = 1 := by norm_num
        omega
      cases fuel2 with
      | zero => rfl
      | succ f2 =>
          rw [shuffle_small f2 bits2 coins2 base length arr2 m2 p2 bi2 ci2 h2]
          rfl
  | succ fuel1 ih =>
      intro fuel2 base length hf1 hf2 bits1 coins1 arr1 m1 p1 bi1 ci1
        bits2 coins2 arr2 m2 p2 bi2 ci2
      by_cases h2 : length < 2
      · cases fuel2 with
        | zero =>
            rw [shuffle_small fuel1 bits1 coins1 base length arr1 m1 p1
              bi1 ci1 h2]
            rfl
        | succ f2 =>
            rw [shuffle_small fuel1 bits1 coins1 base length arr1 m1 p1
              bi1 ci1 h2,
              shuffle_small f2 bits2 coins2 base length arr2 m2 p2 bi2 ci2 h2]
      · have hlen2 : 2 ≤ length := by omega
        cases fuel2 with
        | zero =>
            exfalso
            have : (2 : Nat) ^ 0 = 1 := by norm_num
            omega
        | succ f2 =>
            by_cases h3 : length = 2
            · subst h3
              rw [shuffle_two, shuffle_two]
            · have hhalf1 : length / 2 ≤ 2 ^ fuel1 := by
                have hp : (2 : Nat) ^ (fuel1 + 1) = 2 ^ fuel1 * 2 := by
                  rw [pow_succ]
                omega
              have hhalf2 : length / 2 ≤ 2 ^ f2 := by
                have hp : (2 : Nat) ^ (f2 + 1) = 2 ^ f2 * 2 := by
                  rw [pow_succ]
                omega
              simp only [shuffle]
              rw [if_neg h2, if_neg h3, if_neg h2, if_neg h3]
              dsimp only
              set mk1 := markPhase coins1 length base ci1 m1 p1 with hmk1
              set cp1 := compact length arr1 mk1.1 mk1.2.1 base length 0
                with hcp1
              set s11 := shuffle fuel1 bits1 coins1 base (length / 2) cp1.1
                mk1.1 mk1.2.1 bi1 (ci1 + length) with hs11
              set mk2 := markPhase coins2 length base ci2 m2 p2 with hmk2
              set cp2 := compact length arr2 mk2.1 mk2.2.1 base length 0
                with hcp2
              set s12 := shuffle f2 bits2 coins2 base (length / 2) cp2.1
                mk2.1 mk2.2.1 bi2 (ci2 + length) with hs12
              have hc : cp1.2 = cp2.2 := by
                rw [hcp1, hcp2]
                exact compact_trace_eq length base length arr1 mk1.1 mk1.2.1 0
                  arr2 mk2.1 mk2.2.1 0
              have h1 : s11.trace = s12.trace := by
                rw [hs11, hs12]
                exact ih f2 base (length / 2) hhalf1 hhalf2 bits1 coins1 cp1.1
                  mk1.1 mk1.2.1 bi1 (ci1 + length) bits2 coins2 cp2.1 mk2.1
                  mk2.2.1 bi2 (ci2 + length)
              have htail : (shuffle fuel1 bits1 coins1 (base + length / 2)
                  (length / 2) s11.arr s11.marked s11.psums s11.bi
                  s11.ci).trace
                  = (shuffle f2 bits2 coins2 (base + length / 2) (length / 2)
                      s12.arr s12.marked s12.psums s12.bi s12.ci).trace :=
                ih f2 (base + length / 2) (length / 2) hhalf1 hhalf2 bits1
                  coins1 s11.arr s11.marked s11.psums s11.bi s11.ci bits2
                  coins2 s12.arr s12.marked s12.psums s12.bi s12.ci
              rw [hc, h1, htail]

/-- C5: for any two record arrays (of any element types) of the same length,
any marker and prefix-sum contents, any coin and bit streams and stream
positions, and any sufficient recursion fuel, `shuffle` hands the identical
sequence of index pairs, in the identical order, to `o_memswap` (through
`compact` and `swap_local_range`): the trace is a deterministic function of
the length (and region base) alone. -/
theorem shuffle_trace_oblivious {α β : Type} (fuel1 fuel2 base length : Nat)
    (hf1 : length ≤ 2 ^ fuel1) (hf2 : length ≤ 2 ^ fuel2)
    (bits1 : Nat → Bool) (coins1 : Nat → Nat) (arr1 : Nat → α)
    (m1 : Nat → Bool) (p1 : Nat → Nat) (bi1 ci1 : Nat)
    (bits2 : Nat → Bool) (coins2 : Nat → Nat) (arr2 : Nat → β)
    (m2 : Nat → Bool) (p2 : Nat → Nat) (bi2 ci2 : Nat) :
    (shuffle fuel1 bits1 coins1 base length arr1 m1 p1 bi1 ci1).trace
      = (shuffle fuel2 bits2 coins2 base length arr2 m2 p2 bi2 ci2).trace :=
  shuffle_trace_eq fuel1 fuel2 base length hf1 hf2 bits1 coins1 arr1 m1 p1
    bi1 ci1 bits2 coins2 arr2 m2 p2 bi2 ci2

/-- C5 witness: two length-4 runs with different element types, contents,
coins, bits and fuels produce the same `o_memswap` trace. -/
theorem shuffle_trace_oblivious_witness :
    ((4 : Nat) ≤ 2 ^ 2 ∧ (4 : Nat) ≤ 2 ^ 5)
      ∧ (shuffle 2 (fun _ => true) (fun _ => 0) 0 4 (fun i => i)
          (fun _ => false) (fun _ => 0) 0 0).trace
        = (shuffle 5 (fun i => i % 3 = 1) (fun i => i * 17) 0 4
            (fun i => decide (i = 2)) (fun _ => true) (fun _ => 3) 2 9).trace :=
  ⟨⟨by norm_num, by norm_num⟩,
   shuffle_trace_oblivious 2 5 0 4 (by norm_num) (by norm_num)
     (fun _ => true) (fun _ => 0) (fun i => i) (fun _ => false) (fun _ => 0)
     0 0 (fun i => i % 3 = 1) (fun i => i * 17) (fun i => decide (i = 2))
     (fun _ => true) (fun _ => 3) 2 9⟩

/- ### Marked-count bookkeeping for the compaction proof -/

theorem countMarked_le (marked : Nat → Bool) (base k : Nat) :
    countMarked marked base k ≤ k := by
  unfold countMarked
  calc ((List.range k).filter (fun i => marked (base + i))).length
      ≤ (List.range k).length := List.length_filter_le _ _
    _ = k := List.length_range k

theorem markedIdxs_split (marked : Nat → Bool) (base a b : Nat) :
    markedIdxs marked base (a + b)
      = markedIdxs marked base a
        ++ (markedIdxs marked (base + a) b).map (fun x => a + x) := by
  unfold markedIdxs
  rw [List.range_add, List.filter_append, List.filter_map]
  congr 1
  rw [List.filter_congr]
  intro x _
  show marked (base + (a + x)) = marked (base + a + x)
  rw [Nat.add_assoc]

theorem countMarked_split (marked : Nat → Bool) (base a b : Nat) :
    countMarked marked base (a + b)
      = countMarked marked base a + countMarked marked (base + a) b := by
  have h := congrArg List.length (markedIdxs_split marked base a b)
  rw [List.length_append, List.length_map] at h
  exact h

theorem countMarked_mono (marked : Nat → Bool) (base : Nat) {a b : Nat}
    (hab : a ≤ b) : countMarked marked base a ≤ countMarked marked base b := by
  have h : a + (b - a) = b := by omega
  calc countMarked marked base a
      ≤ countMarked marked base a + countMarked marked (base + a) (b - a) :=
        Nat.le_add_right _ _
    _ = countMarked marked base (a + (b - a)) :=
        (countMarked_split marked base a (b - a)).symm
    _ = countMarked marked base b := by rw [h]

theorem countMarked_one (marked : Nat → Bool) (base : Nat) :
    countMarked marked base 1 = if marked base then 1 else 0 := by
  unfold countMarked
  rw [show List.range 1 = [0] from rfl]
  cases hm : marked base <;> simp [List.filter_cons, hm]

theorem markedIdxs_length (marked : Nat → Bool) (base len : Nat) :
    (markedIdxs marked base len).length = countMarked marked base len := rfl

theorem markedIdxs_mem (marked : Nat → Bool) (base len : Nat) {x : Nat}
    (hx : x ∈ markedIdxs marked base len) : x < len ∧ marked (base + x) := by
  unfold markedIdxs at hx
  have h1 := List.mem_range.mp (List.mem_of_mem_filter hx)
  have h2 := List.of_mem_filter hx
  exact ⟨h1, by simpa using h2⟩

theorem markedIdxs_getD_lt (marked : Nat → Bool) (base len j : Nat)
    (hj : j < (markedIdxs marked base len).length) :
    (markedIdxs marked base len).getD j 0 < len := by
  have hmem : (markedIdxs marked base len).getD j 0
      ∈ markedIdxs marked base len := by
    rw [List.getD_eq_getElem _ _ hj]
    exact List.getElem_mem hj
  exact (markedIdxs_mem marked base len hmem).1

theorem consistentFrom_left {marked : Nat → Bool} {psums : Nat → Nat}
    {base len δ : Nat} (h : ConsistentFrom marked psums base (2 * len) δ) :
    ConsistentFrom marked psums base len δ :=
  fun i hi => h i (by omega)

theorem consistentFrom_right {marked : Nat → Bool} {psums : Nat → Nat}
    {base len δ : Nat} (h : ConsistentFrom marked psums base (2 * len) δ) :
    ConsistentFrom marked psums (base + len) len
      (δ + countMarked marked base len) := by
  intro i hi
  have h1 := h (len + i) (by omega)
  rw [show base + (len + i) = base + len + i by omega] at h1
  rw [h1, show len + i + 1 = len + (i + 1) by omega,
    countMarked_split marked base len (i + 1), Nat.add_assoc]

theorem lmcOf_eq {marked : Nat → Bool} {psums : Nat → Nat}
    {base len δ : Nat} (hlen : 2 ≤ len) (hM : δ + len < M64)
    (h : ConsistentFrom marked psums base len δ) :
    lmcOf marked psums base len = countMarked marked base (len / 2) := by
  have hh : 0 < len / 2 := by omega
  have h1 := h (len / 2 - 1) (by omega)
  have h0 := h 0 (by omega)
  rw [Nat.add_zero] at h0
  rw [show len / 2 - 1 + 1 = len / 2 by omega] at h1
  rw [show base + (len / 2 - 1) = base + len / 2 - 1 by omega] at h1
  unfold lmcOf
  rw [h1, h0, countMarked_one]
  have hmono : countMarked marked base 1 ≤ countMarked marked base (len / 2) :=
    countMarked_mono marked base (by omega)
  rw [countMarked_one] at hmono
  have hcm : countMarked marked base (len / 2) ≤ len / 2 := countMarked_le _ _ _
  have hsub : sizeSub (δ + countMarked marked base (len / 2))
      (δ + if marked base then 1 else 0)
      = δ + countMarked marked base (len / 2)
        - (δ + if marked base then 1 else 0) :=
    sizeSub_of_le (by omega) (by omega)
  rw [hsub]
  rw [Nat.mod_eq_of_lt]
  · omega
  · omega

/- ### The swap-condition arithmetic at the heart of offset compaction -/

theorem slr_cond_core (h z ml j : Nat) (hh : 0 < h) (hz : z < 2 * h)
    (hml : ml ≤ h) (hj : j < ml + h) :
    ((decide (z % h + ml ≥ h) != decide (z ≥ h))
        != decide ((z + j) % h ≥ (z + ml) % h))
      = decide ((j < ml) ↔ ((z + j) % (2 * h) ≥ h)) := by
  have hbne : ∀ (a b : Bool), ((a != b) = true) = ¬(a = true ↔ b = true) := by
    decide
  rw [Bool.eq_iff_iff, hbne, hbne]
  simp only [decide_eq_true_eq]
  have d1 : h * (z / h) + z % h = z := Nat.div_add_mod z h
  have r1 : z % h < h := Nat.mod_lt z hh
  have q1 : z / h < 2 := (Nat.div_lt_iff_lt_mul hh).mpr (by omega)
  have d2 : h * ((z + j) / h) + (z + j) % h = z + j := Nat.div_add_mod _ h
  have r2 : (z + j) % h < h := Nat.mod_lt _ hh
  have q2 : (z + j) / h < 4 := (Nat.div_lt_iff_lt_mul hh).mpr (by omega)
  have d3 : h * ((z + ml) / h) + (z + ml) % h = z + ml := Nat.div_add_mod _ h
  have r3 : (z + ml) % h < h := Nat.mod_lt _ hh
  have q3 : (z + ml) / h < 3 := (Nat.div_lt_iff_lt_mul hh).mpr (by omega)
  have d4 : 2 * h * ((z + j) / (2 * h)) + (z + j) % (2 * h) = z + j :=
    Nat.div_add_mod _ (2 * h)
  have r4 : (z + j) % (2 * h) < 2 * h := Nat.mod_lt _ (by omega)
  have q4 : (z + j) / (2 * h) < 2 :=
    (Nat.div_lt_iff_lt_mul (by omega)).mpr (by omega)
  set a1 := z / h with ha1
  set a2 := (z + j) / h with ha2
  set a3 := (z + ml) / h with ha3
  set a4 := (z + j) / (2 * h) with ha4
  set r1v := z % h with hr1v
  set r2v := (z + j) % h with hr2v
  set r3v := (z + ml) % h with hr3v
  set r4v := (z + j) % (2 * h) with hr4v
  clear_value a1 a2 a3 a4 r1v r2v r3v r4v
  interval_cases a1 <;> interval_cases a2 <;> interval_cases a3 <;>
    interval_cases a4 <;> omega


theorem compact_two_marked_pos {α : Type} (f : Nat) (arr : Nat → α)
    (marked : Nat → Bool) (psums : Nat → Nat) (base offset : Nat)
    (hoff : offset < 2) (j : Nat)
    (hj : j < (markedIdxs marked base 2).length) :
    (compact (f + 1) arr marked psums base 2 offset).1
        (base + (offset + j) % 2)
      = arr (base + (markedIdxs marked base 2).getD j 0) := by
  rw [compact_two f arr marked psums base offset]
  show o_memswap arr base (base + 1)
      ((!marked base && marked (base + 1)) != decide (offset ≠ 0))
      (base + (offset + j) % 2)
    = arr (base + (markedIdxs marked base 2).getD j 0)
  have hrange2 : List.range 2 = [0, 1] := rfl
  cases hm0 : marked base <;> cases hm1 : marked (base + 1)
  · have hmi : markedIdxs marked base 2 = [] := by
      unfold markedIdxs
      rw [hrange2]
      simp [List.filter_cons, hm0, hm1]
    rw [hmi] at hj
    exact absurd hj (by simp)
  · have hmi : markedIdxs marked base 2 = [1] := by
      unfold markedIdxs
      rw [hrange2]
      simp [List.filter_cons, hm0, hm1]
    rw [hmi] at hj
    have hj0 : j = 0 := by simpa using hj
    subst hj0
    rw [hmi]
    interval_cases offset <;>
      simp [o_memswap_apply, hm0, hm1]
  · have hmi : markedIdxs marked base 2 = [0] := by
      unfold markedIdxs
      rw [hrange2]
      simp [List.filter_cons, hm0, hm1]
    rw [hmi] at hj
    have hj0 : j = 0 := by simpa using hj
    subst hj0
    rw [hmi]
    interval_cases offset <;>
      simp [o_memswap_apply, hm0, hm1]
  · have hmi : markedIdxs marked base 2 = [0, 1] := by
      unfold markedIdxs
      rw [hrange2]
      simp [List.filter_cons, hm0, hm1]
    rw [hmi] at hj
    have hj01 : j < 2 := by simpa using hj
    rw [hmi]
    interval_cases offset <;> interval_cases j <;>
      simp [o_memswap_apply, hm0, hm1]

theorem getD_map_zero (l : List Nat) (f : Nat → Nat) (i : Nat)
    (h : i < l.length) : (l.map f).getD i 0 = f (l.getD i 0) := by
  rw [List.getD_eq_getElem _ _ (by simpa using h), List.getD_eq_getElem _ _ h]
  simp

theorem compact_marked_pos {α : Type} :
    ∀ (k fuel : Nat), k ≤ fuel →
      ∀ (δ : Nat) (arr : Nat → α) (marked : Nat → Bool) (psums : Nat → Nat)
        (base offset : Nat),
        offset < 2 ^ k → 2 ^ k ≤ 2 ^ 63 → δ + 2 ^ k < M64 →
        ConsistentFrom marked psums base (2 ^ k) δ →
        ∀ j, j < (markedIdxs marked base (2 ^ k)).length →
          (compact fuel arr marked psums base (2 ^ k) offset).1
              (base + (offset + j) % 2 ^ k)
            = arr (base + (markedIdxs marked base (2 ^ k)).getD j 0) := by
  intro k
  induction k with
  | zero =>
      intro fuel _ δ arr marked psums base offset hoff _ _ _ j hj
      have hgd : (markedIdxs marked base (2 ^ 0)).getD j 0 = 0 := by
        have := markedIdxs_getD_lt marked base (2 ^ 0) j hj
        omega
      have hmod : (offset + j) % 2 ^ 0 = 0 := by
        have : (2 : Nat) ^ 0 = 1 := by norm_num
        rw [this]
        omega
      rw [hmod, hgd]
      cases fuel with
      | zero => rfl
      | succ f =>
          rw [compact_small f arr marked psums base (2 ^ 0) offset (by norm_num)]
  | succ k ih =>
      intro fuel hkf δ arr marked psums base offset hoff hbound hM hcons j hj
      obtain ⟨f, rfl⟩ : ∃ f, fuel = f + 1 := ⟨fuel - 1, by omega⟩
      have hkf' : k ≤ f := by omega
      by_cases hk0 : k = 0
      · subst hk0
        have hpow : (2 : Nat) ^ (0 + 1) = 2 := by norm_num
        rw [hpow] at hoff hj ⊢
        exact compact_two_marked_pos f arr marked psums base offset hoff j hj
      · -- main recursive case: length = 2 * H with H = 2 ^ k ≥ 2
        have hk1 : 1 ≤ k := by omega
        have hHpos : 0 < 2 ^ k := Nat.pos_pow_of_pos k (by norm_num)
        have hH2 : 2 ≤ 2 ^ k := by
          calc (2 : Nat) = 2 ^ 1 := by norm_num
            _ ≤ 2 ^ k := Nat.pow_le_pow_right (by norm_num) hk1
        have h2h : (2 : Nat) ^ (k + 1) = 2 * 2 ^ k := by
          rw [pow_succ]; ring
        have hHH : 2 * 2 ^ k = 2 ^ k + 2 ^ k := by ring
        have hc63 : (2 : Nat) ^ 63 = 9223372036854775808 := by norm_num
        rw [h2h] at hoff hbound hM hcons hj ⊢
        rw [hc63] at hbound
        have hdiv : 2 * 2 ^ k / 2 = 2 ^ k := by omega
        -- abbreviations
        have hml_le : countMarked marked base (2 ^ k) ≤ 2 ^ k :=
          countMarked_le marked base (2 ^ k)
        have hmr_le : countMarked marked (base + 2 ^ k) (2 ^ k) ≤ 2 ^ k :=
          countMarked_le marked (base + 2 ^ k) (2 ^ k)
        have hlmc : lmcOf marked psums base (2 * 2 ^ k)
            = countMarked marked base (2 ^ k) := by
          have h0 : lmcOf marked psums base (2 * 2 ^ k)
              = countMarked marked base (2 * 2 ^ k / 2) :=
            lmcOf_eq (by omega) (by omega) hcons
          rw [hdiv] at h0
          exact h0
        have hsplit : markedIdxs marked base (2 * 2 ^ k)
            = markedIdxs marked base (2 ^ k)
              ++ (markedIdxs marked (base + 2 ^ k) (2 ^ k)).map
                  (fun x => 2 ^ k + x) := by
          rw [hHH]
          exact markedIdxs_split marked base (2 ^ k) (2 ^ k)
        have hmlen : (markedIdxs marked base (2 * 2 ^ k)).length
            = countMarked marked base (2 ^ k)
              + countMarked marked (base + 2 ^ k) (2 ^ k) := by
          rw [hsplit, List.length_append, List.length_map]
          rfl
        rw [hmlen] at hj
        -- the right-child offset, with the size_t reduction stripped
        have hstrip : (offset + lmcOf marked psums base (2 * 2 ^ k)) % M64
            = offset + countMarked marked base (2 ^ k) := by
          rw [hlmc]
          apply Nat.mod_eq_of_lt
          rw [M64_eq]
          omega
        -- evaluate the outer compaction layer by layer
        rw [compact_fst_main f arr marked psums base (2 * 2 ^ k) offset
          (by omega) (by omega)]
        rw [hstrip, hdiv, hlmc]
        -- target and half-target indices
        have hq_lt : (offset + j) % 2 ^ k < 2 ^ k := Nat.mod_lt _ hHpos
        have ht_lt : (offset + j) % (2 * 2 ^ k) < 2 * 2 ^ k :=
          Nat.mod_lt _ (by omega)
        have htq : (offset + j) % (2 * 2 ^ k) % 2 ^ k = (offset + j) % 2 ^ k :=
          Nat.mod_mod_of_dvd _ (dvd_mul_left (2 ^ k) 2)
        have hqt : (offset + j) % (2 * 2 ^ k) = (offset + j) % 2 ^ k
            ∨ (offset + j) % (2 * 2 ^ k) = (offset + j) % 2 ^ k + 2 ^ k := by
          have d := Nat.div_add_mod ((offset + j) % (2 * 2 ^ k)) (2 ^ k)
          have ql : (offset + j) % (2 * 2 ^ k) / 2 ^ k < 2 :=
            (Nat.div_lt_iff_lt_mul hHpos).mpr ht_lt
          have two_cases : ∀ n : Nat, n < 2 → n = 0 ∨ n = 1 := by
            intro n hn
            omega
          rcases two_cases _ ql with h0 | h1
          · rw [h0, Nat.mul_zero] at d
            omega
          · rw [h1, Nat.mul_one] at d
            omega
        -- the swap condition at the half-target index
        have hcond : slrCond (2 * 2 ^ k) offset
            (countMarked marked base (2 ^ k)) ((offset + j) % 2 ^ k)
            = decide ((j < countMarked marked base (2 ^ k))
                ↔ ((offset + j) % (2 * 2 ^ k) ≥ 2 ^ k)) := by
          unfold slrCond
          rw [hdiv]
          rw [Nat.mod_eq_of_lt (a := offset % 2 ^ k
            + countMarked marked base (2 ^ k)) (by
              have := Nat.mod_lt offset hHpos
              rw [M64_eq]
              omega)]
          rw [Nat.mod_eq_of_lt (a := offset
            + countMarked marked base (2 ^ k)) (by
              rw [M64_eq]
              omega)]
          exact slr_cond_core (2 ^ k) offset (countMarked marked base (2 ^ k))
            j hHpos (by omega) hml_le (by omega)
        -- evaluate the swap layer at the target position
        rw [swap_local_range_eval]
        rw [hdiv]
        by_cases hjml : j < countMarked marked base (2 ^ k)
        · -- the j-th marked element lives in the left half
          have hLval : (compact f arr marked psums base (2 ^ k)
              (offset % 2 ^ k)).1 (base + (offset + j) % 2 ^ k)
              = arr (base + (markedIdxs marked base (2 ^ k)).getD j 0) := by
            have h0 := ih f hkf' δ arr marked psums base (offset % 2 ^ k)
              (Nat.mod_lt _ hHpos) (by omega) (by omega)
              (by
                have hcl : ConsistentFrom marked psums base (2 ^ k) δ :=
                  consistentFrom_left hcons
                exact hcl)
              j hjml
            rw [Nat.mod_add_mod] at h0
            exact h0
          have hRval : ∀ p, p < base + 2 ^ k →
              (compact f (compact f arr marked psums base (2 ^ k)
                  (offset % 2 ^ k)).1 marked psums (base + 2 ^ k) (2 ^ k)
                  ((offset + countMarked marked base (2 ^ k)) % 2 ^ k)).1 p
                = (compact f arr marked psums base (2 ^ k)
                    (offset % 2 ^ k)).1 p :=
            fun p hp => compact_untouched f _ marked psums (base + 2 ^ k)
              (2 ^ k) _ p (Or.inl hp)
          have hgd : (markedIdxs marked base (2 * 2 ^ k)).getD j 0
              = (markedIdxs marked base (2 ^ k)).getD j 0 := by
            rw [hsplit]
            exact List.getD_append _ _ _ _ (by
              rw [markedIdxs_length]
              exact hjml)
          rw [hgd]
          rcases hqt with hcase | hcase
          · -- target in the lower half: no swap happens at this pair
            rw [if_pos (by omega)]
            have hsub : base + (offset + j) % (2 * 2 ^ k) - base
                = (offset + j) % 2 ^ k := by omega
            rw [hsub, hcond]
            rw [decide_eq_false (by omega)]
            rw [if_neg (by simp)]
            have he : base + (offset + j) % (2 * 2 ^ k)
                = base + (offset + j) % 2 ^ k := by omega
            rw [he, hRval _ (by omega), hLval]
          · -- target in the upper half: the pair swaps the element up
            rw [if_neg (by omega), if_pos (by omega)]
            have hsub : base + (offset + j) % (2 * 2 ^ k) - base - 2 ^ k
                = (offset + j) % 2 ^ k := by omega
            rw [hsub, hcond]
            rw [decide_eq_true (by omega)]
            rw [if_pos rfl]
            have he : base + (offset + j) % (2 * 2 ^ k) - 2 ^ k
                = base + (offset + j) % 2 ^ k := by omega
            rw [he, hRval _ (by omega), hLval]
        · -- the j-th marked element lives in the right half
          have hjr : j - countMarked marked base (2 ^ k)
              < countMarked marked (base + 2 ^ k) (2 ^ k) := by omega
          have hRval : (compact f (compact f arr marked psums base (2 ^ k)
              (offset % 2 ^ k)).1 marked psums (base + 2 ^ k) (2 ^ k)
              ((offset + countMarked marked base (2 ^ k)) % 2 ^ k)).1
              (base + 2 ^ k + (offset + j) % 2 ^ k)
              = arr (base + 2 ^ k + (markedIdxs marked (base + 2 ^ k)
                  (2 ^ k)).getD (j - countMarked marked base (2 ^ k)) 0) := by
            have h0 := ih f hkf' (δ + countMarked marked base (2 ^ k))
              (compact f arr marked psums base (2 ^ k) (offset % 2 ^ k)).1
              marked psums (base + 2 ^ k)
              ((offset + countMarked marked base (2 ^ k)) % 2 ^ k)
              (Nat.mod_lt _ hHpos) (by omega) (by omega)
              (consistentFrom_right hcons)
              (j - countMarked marked base (2 ^ k))
              (by
                rw [markedIdxs_length]
                exact hjr)
            rw [Nat.mod_add_mod] at h0
            rw [show offset + countMarked marked base (2 ^ k)
              + (j - countMarked marked base (2 ^ k)) = offset + j by omega]
              at h0
            rw [h0]
            rw [compact_untouched f arr marked psums base (2 ^ k)
              (offset % 2 ^ k) _ (Or.inr (by omega))]
          have hgd : (markedIdxs marked base (2 * 2 ^ k)).getD j 0
              = 2 ^ k + (markedIdxs marked (base + 2 ^ k) (2 ^ k)).getD
                  (j - countMarked marked base (2 ^ k)) 0 := by
            rw [hsplit]
            rw [List.getD_append_right _ _ _ _ (by
              rw [markedIdxs_length]
              omega)]
            rw [markedIdxs_length]
            exact getD_map_zero _ _ _ (by
              rw [markedIdxs_length]
              exact hjr)
          rw [hgd]
          rcases hqt with hcase | hcase
          · -- target in the lower half: the pair swaps the element down
            rw [if_pos (by omega)]
            have hsub : base + (offset + j) % (2 * 2 ^ k) - base
                = (offset + j) % 2 ^ k := by omega
            rw [hsub, hcond]
            rw [decide_eq_true (by omega)]
            rw [if_pos rfl]
            have he : base + (offset + j) % (2 * 2 ^ k) + 2 ^ k
                = base + 2 ^ k + (offset + j) % 2 ^ k := by omega
            rw [he, hRval]
            rw [show base + 2 ^ k + (markedIdxs marked (base + 2 ^ k)
              (2 ^ k)).getD (j - countMarked marked base (2 ^ k)) 0
              = base + (2 ^ k + (markedIdxs marked (base + 2 ^ k)
                (2 ^ k)).getD (j - countMarked marked base (2 ^ k)) 0)
              by omega]
          · -- target in the upper half: no swap at this pair
            rw [if_neg (by omega), if_pos (by omega)]
            have hsub : base + (offset + j) % (2 * 2 ^ k) - base - 2 ^ k
                = (offset + j) % 2 ^ k := by omega
            rw [hsub, hcond]
            rw [decide_eq_false (by omega)]
            rw [if_neg (by simp)]
            have he : base + (offset + j) % (2 * 2 ^ k)
                = base + 2 ^ k + (offset + j) % 2 ^ k := by omega
            rw [he, hRval]
            rw [show base + 2 ^ k + (markedIdxs marked (base + 2 ^ k)
              (2 ^ k)).getD (j - countMarked marked base (2 ^ k)) 0
              = base + (2 ^ k + (markedIdxs marked (base + 2 ^ k)
                (2 ^ k)).getD (j - countMarked marked base (2 ^ k)) 0)
              by omega]

theorem map_getD_range {α : Type} (l : List Nat) (f : Nat → α) :
    (List.range l.length).map (fun j => f (l.getD j 0)) = l.map f := by
  induction l with
  | nil => rfl
  | cons x xs ihx =>
      rw [List.length_cons, List.range_succ_eq_map, List.map_cons,
        List.map_cons, List.map_map]
      rw [show ((fun j => f ((x :: xs).getD j 0)) ∘ Nat.succ)
          = (fun j => f (xs.getD j 0)) from rfl]
      rw [ihx]
      rfl

/-- C4 (amended): for a power-of-two region length `L = 2 ^ k` with exactly
`L / 2` marked positions and consistent (inclusive) prefix sums, `compact`
places the `j`-th marked element, in original relative order, at position
`(offset + j) mod L`.  With `offset = 0` this puts the marked elements at
`[0, L/2)` in original order and the unmarked elements (as a multiset) at
`[L/2, L)`; with a nonzero offset the destination window is the cyclic
interval `[offset, offset + L/2) mod L` of the whole array — a circular
shift of the destination sequence by `offset` positions mod `L`, not a
rotation inside the prefix `[0, L/2)`. -/
theorem compact_marked_to_front {α : Type} (k fuel : Nat) (arr : Nat → α)
    (marked : Nat → Bool) (psums : Nat → Nat) (offset : Nat)
    (hkf : k ≤ fuel) (hk : k ≤ 63) (hoff : offset < 2 ^ k)
    (hcons : ∀ i < 2 ^ k, psums i = countMarked marked 0 (i + 1))
    (hhalf : countMarked marked 0 (2 ^ k) = 2 ^ k / 2) :
    (∀ j < 2 ^ k / 2,
        (compact fuel arr marked psums 0 (2 ^ k) offset).1
            ((offset + j) % 2 ^ k)
          = arr ((markedIdxs marked 0 (2 ^ k)).getD j 0))
      ∧ (offset = 0 →
          ((List.range (2 ^ k - 2 ^ k / 2)).map
              (fun p => (compact fuel arr marked psums 0 (2 ^ k) offset).1
                (2 ^ k / 2 + p)) : Multiset α)
            = ((unmarkedIdxs marked 0 (2 ^ k)).map arr : Multiset α)) := by
  have hb63 : (2 : Nat) ^ k ≤ 2 ^ 63 := Nat.pow_le_pow_right (by norm_num) hk
  have hMlt : (0 : Nat) + 2 ^ k < M64 := by
    rw [M64_eq]
    have : (2 : Nat) ^ 63 = 9223372036854775808 := by norm_num
    omega
  have hconsF : ConsistentFrom marked psums 0 (2 ^ k) 0 := by
    intro i hi
    rw [Nat.zero_add, Nat.zero_add]
    exact hcons i hi
  have hpos : ∀ j, j < 2 ^ k / 2 →
      (compact fuel arr marked psums 0 (2 ^ k) offset).1
          ((offset + j) % 2 ^ k)
        = arr ((markedIdxs marked 0 (2 ^ k)).getD j 0) := by
    intro j hj
    have h0 := compact_marked_pos k fuel hkf 0 arr marked psums 0 offset hoff
      hb63 hMlt hconsF j (by
        rw [markedIdxs_length, hhalf]
        exact hj)
    rw [Nat.zero_add, Nat.zero_add] at h0
    exact h0
  refine ⟨hpos, ?_⟩
  intro hoff0
  subst hoff0
  -- whole-region multiset preservation
  have hperm : elems (compact fuel arr marked psums 0 (2 ^ k) 0).1 0 (2 ^ k)
      = elems arr 0 (2 ^ k) := elems_compact fuel arr marked psums 0 (2 ^ k) 0
  have hm_le : 2 ^ k / 2 ≤ 2 ^ k := Nat.div_le_self _ _
  -- split the result region at L/2
  rw [elems_split_at _ 0 (2 ^ k) (2 ^ k / 2) hm_le] at hperm
  -- the prefix of the result is exactly the marked elements in order
  have hpre : elems (compact fuel arr marked psums 0 (2 ^ k) 0).1 0 (2 ^ k / 2)
      = ((markedIdxs marked 0 (2 ^ k)).map arr : Multiset α) := by
    unfold elems
    have hmap : (List.range (2 ^ k / 2)).map
        (fun i => (compact fuel arr marked psums 0 (2 ^ k) 0).1 (0 + i))
        = (List.range (2 ^ k / 2)).map
          (fun j => arr ((markedIdxs marked 0 (2 ^ k)).getD j 0)) := by
      apply List.map_congr_left
      intro i hi
      have hilt := List.mem_range.mp hi
      have h0 := hpos i hilt
      rw [Nat.mod_eq_of_lt (show 0 + i < 2 ^ k by omega)] at h0
      exact h0
    rw [hmap]
    have hlen : 2 ^ k / 2 = (markedIdxs marked 0 (2 ^ k)).length := by
      rw [markedIdxs_length, hhalf]
    rw [hlen, map_getD_range]
  rw [hpre] at hperm
  -- the whole of the original region splits into marked and unmarked parts
  have harr : elems arr 0 (2 ^ k)
      = ((markedIdxs marked 0 (2 ^ k)).map arr : Multiset α)
        + ((unmarkedIdxs marked 0 (2 ^ k)).map arr : Multiset α) := by
    unfold elems
    have hp : List.Perm
        (markedIdxs marked 0 (2 ^ k) ++ unmarkedIdxs marked 0 (2 ^ k))
        (List.range (2 ^ k)) :=
      (List.range (2 ^ k)).filter_append_perm (fun i => marked (0 + i))
    have hmm : ((List.map arr (markedIdxs marked 0 (2 ^ k)
        ++ unmarkedIdxs marked 0 (2 ^ k))) : Multiset α)
        = ((List.map arr (List.range (2 ^ k))) : Multiset α) :=
      Quot.sound (hp.map arr)
    calc ((List.map (fun i => arr (0 + i)) (List.range (2 ^ k))) : Multiset α)
        = ((List.map arr (List.range (2 ^ k))) : Multiset α) := by
          congr 1
          apply List.map_congr_left
          intro i _
          rw [Nat.zero_add]
      _ = ((List.map arr (markedIdxs marked 0 (2 ^ k)
            ++ unmarkedIdxs marked 0 (2 ^ k))) : Multiset α) := hmm.symm
      _ = ((List.map arr (markedIdxs marked 0 (2 ^ k))
            ++ List.map arr (unmarkedIdxs marked 0 (2 ^ k))) : Multiset α) := by
          rw [List.map_append]
      _ = ((List.map arr (markedIdxs marked 0 (2 ^ k)) : Multiset α)
            + (List.map arr (unmarkedIdxs marked 0 (2 ^ k)) : Multiset α)) :=
          (Multiset.coe_add _ _).symm
  rw [harr] at hperm
  have hsuf := add_left_cancel hperm
  rw [← hsuf]
  unfold elems
  congr 1
  apply List.map_congr_left
  intro p _
  rw [Nat.zero_add]

/-- C4 counterexample for the claim as stated: with `L = 4`,
`marked = [1,1,0,0]`, consistent prefix sums `[1,2,2,2]`, `arr = id` and
`offset = 1`, the claim's "destination prefix circularly shifted by
`offset mod L/2`" would keep both marked elements inside positions
`[0, 2)`; in fact the result is `[3, 0, 1, 2]`: position 0 holds the
unmarked record 3 and the marked record 1 sits at position 2, outside the
prefix. -/
theorem compact_offset_counterexample :
    (compact 3 (fun i => i) (fun i => decide (i < 2))
        (fun i => if i = 0 then 1 else 2) 0 4 1).1 0 = 3
      ∧ (compact 3 (fun i => i) (fun i => decide (i < 2))
          (fun i => if i = 0 then 1 else 2) 0 4 1).1 2 = 1
      ∧ markedIdxs (fun i => decide (i < 2)) 0 4 = [0, 1]
      ∧ (fun i => decide (i < 2)) 3 = false := by
  refine ⟨by decide, by decide, by decide, by decide⟩

/-- C4 witness: the amended theorem applied at `L = 4`,
`marked = [1,1,0,0]`, prefix sums `[1,2,2,2]`, `offset = 1`, `arr = id`;
all hypotheses are discharged by evaluation. -/
theorem compact_marked_to_front_witness :
    ((2 ≤ 3 ∧ 2 ≤ 63 ∧ 1 < 2 ^ 2
        ∧ (∀ i < 2 ^ 2, (fun i => if i = 0 then 1 else 2) i
            = countMarked (fun i => decide (i < 2)) 0 (i + 1))
        ∧ countMarked (fun i => decide (i < 2)) 0 (2 ^ 2) = 2 ^ 2 / 2))
      ∧ ((∀ j < 2 ^ 2 / 2,
          (compact 3 (fun i : Nat => i) (fun i => decide (i < 2))
              (fun i => if i = 0 then 1 else 2) 0 (2 ^ 2) 1).1
              ((1 + j) % 2 ^ 2)
            = (fun i : Nat => i)
                ((markedIdxs (fun i => decide (i < 2)) 0 (2 ^ 2)).getD j 0))
        ∧ ((1 : Nat) = 0 →
            ((List.range (2 ^ 2 - 2 ^ 2 / 2)).map
                (fun p => (compact 3 (fun i : Nat => i)
                  (fun i => decide (i < 2))
                  (fun i => if i = 0 then 1 else 2) 0 (2 ^ 2) 1).1
                  (2 ^ 2 / 2 + p)) : Multiset Nat)
              = ((unmarkedIdxs (fun i => decide (i < 2)) 0 (2 ^ 2)).map
                  (fun i : Nat => i) : Multiset Nat))) :=
  ⟨⟨by decide, by decide, by decide, by decide, by decide⟩,
   compact_marked_to_front 2 3 (fun i : Nat => i) (fun i => decide (i < 2))
     (fun i => if i = 0 then 1 else 2) 1 (by decide) (by decide) (by decide)
     (by decide) (by decide)⟩

/- ### Distributed quickselect (nonoblivious.c:200-470) -/

/-- Embedding of `elem_sample_comparator` (nonoblivious.c:205-209); a
`struct sample` is a `(key, orp_id)` pair, represented by an `Elem` whose
payload is irrelevant. -/
def elem_sample_comparator (a b : Elem) : Int :=
  ((if a.key > b.key then (1 : Int) else 0) - (if a.key < b.key then (1 : Int) else 0)) * 2
    + ((if a.orp_id > b.orp_id then (1 : Int) else 0)
        - (if a.orp_id < b.orp_id then (1 : Int) else 0))

/-- Lexicographic non-strict order on the comparison fields. -/
def lexLe (a b : Elem) : Prop :=
  a.key < b.key ∨ (a.key = b.key ∧ a.orp_id ≤ b.orp_id)

instance (a b : Elem) : Decidable (lexLe a b) := by
  unfold lexLe; infer_instance

theorem esc_le_iff (a b : Elem) :
    elem_sample_comparator a b ≤ 0 ↔ lexLe a b := by
  unfold elem_sample_comparator lexLe
  split_ifs <;> omega

theorem esc_ge_iff (a b : Elem) :
    0 ≤ elem_sample_comparator a b ↔ lexLe b a := by
  unfold elem_sample_comparator lexLe
  split_ifs <;> omega

theorem esc_lt_iff (a b : Elem) :
    elem_sample_comparator a b < 0 ↔ elemLt a b := by
  unfold elem_sample_comparator elemLt
  split_ifs <;> omega

theorem esc_pos_iff (a b : Elem) :
    0 < elem_sample_comparator a b ↔ elemLt b a := by
  unfold elem_sample_comparator elemLt
  split_ifs <;> omega

theorem lexLe_trans {a b c : Elem} (h1 : lexLe a b) (h2 : lexLe b c) :
    lexLe a c := by
  unfold lexLe at *
  omega

theorem lexLe_of_elemLt {a b : Elem} (h : elemLt a b) : lexLe a b := by
  unfold elemLt at h
  unfold lexLe
  omega

/- Membership utilities for region multisets. -/

theorem mem_elems {α : Type} (f : Nat → α) (a l i : Nat) (h1 : a ≤ i)
    (h2 : i < a + l) : f i ∈ elems f a l := by
  unfold elems
  rw [Multiset.mem_coe]
  refine List.mem_map.mpr ⟨i - a, List.mem_range.mpr (by omega), ?_⟩
  rw [show a + (i - a) = i by omega]

theorem elems_mem {α : Type} {f : Nat → α} {a l : Nat} {e : α}
    (h : e ∈ elems f a l) : ∃ i, a ≤ i ∧ i < a + l ∧ e = f i := by
  unfold elems at h
  rw [Multiset.mem_coe] at h
  obtain ⟨p, hp, he⟩ := List.mem_map.mp h
  exact ⟨a + p, by omega,
    by have := List.mem_range.mp hp; omega, he.symm⟩

theorem region_transfer {α : Type} {f g : Nat → α} {a b : Nat} {Q : α → Prop}
    (hin : elems f a (b - a) = elems g a (b - a))
    (hQ : ∀ i, a ≤ i → i < b → Q (g i)) :
    ∀ i, a ≤ i → i < b → Q (f i) := by
  intro i h1 h2
  have hm : f i ∈ elems g a (b - a) := by
    rw [← hin]
    exact mem_elems f a (b - a) i h1 (by omega)
  obtain ⟨j, hj1, hj2, hje⟩ := elems_mem hm
  rw [hje]
  exact hQ j hj1 (by omega)

theorem elems_eq_local {α : Type} {f g : Nat → α} (base len bp lp : Nat)
    (hsub : base ≤ bp ∧ bp + lp ≤ base + len)
    (hout : ∀ k, (k < bp ∨ bp + lp ≤ k) → f k = g k)
    (hin : elems f bp lp = elems g bp lp) :
    elems f base len = elems g base len :=
  elems_eq_of_local_perm hsub hout hin

theorem elems_card {α : Type} (f : Nat → α) (a l : Nat) :
    Multiset.card (elems f a l) = l := by
  unfold elems
  rw [Multiset.coe_card, List.length_map, List.length_range]

/- Counting records below / not above a sample. -/

/-- Number of records among `arr[0..len)` comparing strictly below `s`. -/
def countLtS (arr : Nat → Elem) (len : Nat) (s : Elem) : Nat :=
  Multiset.countP (fun e => elem_sample_comparator e s < 0) (elems arr 0 len)

/-- Number of records among `arr[0..len)` comparing not above `s`. -/
def countLeS (arr : Nat → Elem) (len : Nat) (s : Elem) : Nat :=
  Multiset.countP (fun e => elem_sample_comparator e s ≤ 0) (elems arr 0 len)

/-- Global (all-workers) count of records strictly below `s`. -/
def gCountLt (W : Nat) (arrs : Nat → Nat → Elem) (lens : Nat → Nat)
    (s : Elem) : Nat :=
  Finset.sum (Finset.range W) (fun w => countLtS (arrs w) (lens w) s)

/-- Global (all-workers) count of records not above `s`. -/
def gCountLe (W : Nat) (arrs : Nat → Nat → Elem) (lens : Nat → Nat)
    (s : Elem) : Nat :=
  Finset.sum (Finset.range W) (fun w => countLeS (arrs w) (lens w) s)

theorem countLtS_congr {f g : Nat → Elem} {len : Nat} (s : Elem)
    (h : elems f 0 len = elems g 0 len) :
    countLtS f len s = countLtS g len s := by
  unfold countLtS
  rw [h]

theorem countLeS_congr {f g : Nat → Elem} {len : Nat} (s : Elem)
    (h : elems f 0 len = elems g 0 len) :
    countLeS f len s = countLeS g len s := by
  unfold countLeS
  rw [h]

/- The Hoare-style partition loop (nonoblivious.c:298-339). -/

/-- Plain unconditional swap of two array cells (the three `memcpy`s of the
partition loop). -/
def swapAt (arr : Nat → Elem) (i j : Nat) : Nat → Elem :=
  o_memswap arr i j true

/-- The partition state machine of `distributed_quickselect_helper`
(nonoblivious.c:302-339): state `true` is `PARTITION_SCAN_LEFT`, state
`false` is `PARTITION_SCAN_RIGHT`.  `fuel` bounds the iteration count; every
iteration either shrinks `pr - pl` or flips the state from scan-left to
scan-right, so `2*(pr - pl) + 1` iterations always suffice. -/
def partLoop (pivot : Elem) : Nat → (Nat → Elem) → Nat → Nat → Bool →
    (Nat → Elem) × Nat × Nat
  | 0, arr, pl, pr, _ => (arr, pl, pr)
  | fuel + 1, arr, pl, pr, st =>
      if pl < pr then
        if st then
          if 0 < elem_sample_comparator (arr pl) pivot then
            partLoop pivot fuel arr pl pr false
          else
            partLoop pivot fuel arr (pl + 1) pr true
        else
          if elem_sample_comparator (arr (pr - 1)) pivot < 0 then
            partLoop pivot fuel (swapAt arr (pr - 1) pl) (pl + 1) (pr - 1) true
          else
            partLoop pivot fuel arr pl (pr - 1) false
      else (arr, pl, pr)

/-- Postcondition of the partition loop relative to the initial window
`[pl, pr)` and initial array `arr`. -/
def PartSpec (pivot : Elem) (arr : Nat → Elem) (pl pr : Nat)
    (r : (Nat → Elem) × Nat × Nat) : Prop :=
  r.2.1 = r.2.2 ∧ pl ≤ r.2.1 ∧ r.2.2 ≤ pr
    ∧ (∀ k, k < pl ∨ pr ≤ k → r.1 k = arr k)
    ∧ elems r.1 pl (pr - pl) = elems arr pl (pr - pl)
    ∧ (∀ k, pl ≤ k → k < r.2.1 → elem_sample_comparator (r.1 k) pivot ≤ 0)
    ∧ (∀ k, r.2.2 ≤ k → k < pr → 0 ≤ elem_sample_comparator (r.1 k) pivot)

theorem swapAt_apply (arr : Nat → Elem) (i j k : Nat) :
    swapAt arr i j k = if k = i then arr j else if k = j then arr i else arr k := by
  unfold swapAt
  rw [o_memswap_apply]
  simp

theorem partLoop_succ (pivot : Elem) (fuel : Nat) (arr : Nat → Elem)
    (pl pr : Nat) (st : Bool) :
    partLoop pivot (fuel + 1) arr pl pr st
      = if pl < pr then
          if st then
            if 0 < elem_sample_comparator (arr pl) pivot then
              partLoop pivot fuel arr pl pr false
            else
              partLoop pivot fuel arr (pl + 1) pr true
          else
            if elem_sample_comparator (arr (pr - 1)) pivot < 0 then
              partLoop pivot fuel (swapAt arr (pr - 1) pl) (pl + 1) (pr - 1) true
            else
              partLoop pivot fuel arr pl (pr - 1) false
        else (arr, pl, pr) := rfl

theorem partLoop_spec (pivot : Elem) :
    ∀ (fuel : Nat) (arr : Nat → Elem) (pl pr : Nat) (st : Bool),
      2 * (pr - pl) + (if st then 1 else 0) ≤ fuel →
      pl ≤ pr →
      (st = false → 0 < elem_sample_comparator (arr pl) pivot) →
      PartSpec pivot arr pl pr (partLoop pivot fuel arr pl pr st) := by
  intro fuel
  induction fuel with
  | zero =>
    intro arr pl pr st hfuel hle _
    have hpp : pl = pr := by cases st <;> simp at hfuel <;> omega
    exact ⟨hpp, le_refl _, le_refl _, fun k _ => rfl, rfl,
      fun k h1 h2 => absurd (show k < pl from h2) (not_lt.mpr h1),
      fun k h1 h2 => absurd h2 (not_lt.mpr (show pr ≤ k from h1))⟩
  | succ fuel ih =>
    intro arr pl pr st hfuel hle hst
    rw [partLoop_succ]
    by_cases hlt : pl < pr
    · rw [if_pos hlt]
      cases st with
      | true =>
        rw [if_pos rfl]
        by_cases hc : 0 < elem_sample_comparator (arr pl) pivot
        · rw [if_pos hc]
          refine ih arr pl pr false ?_ hle (fun _ => hc)
          simp at hfuel ⊢
          omega
        · rw [if_neg hc]
          have hspec := ih arr (pl + 1) pr true
            (by simp at hfuel ⊢; omega) (by omega) (fun h => nomatch h)
          obtain ⟨h1, h2, h3, h4, h5, h6, h7⟩ := hspec
          refine ⟨h1, by omega, h3, ?_, ?_, ?_, h7⟩
          · intro k hk
            exact h4 k (by omega)
          · refine elems_eq_local _ _ (pl + 1) (pr - (pl + 1))
              ⟨by omega, by omega⟩ (fun k hk => h4 k (by omega)) h5
          · intro k hk1 hk2
            by_cases hkp : k = pl
            · rw [hkp, h4 pl (Or.inl (by omega))]
              omega
            · exact h6 k (by omega) hk2
      | false =>
        rw [if_neg (by simp)]
        have hpl : 0 < elem_sample_comparator (arr pl) pivot := hst rfl
        by_cases hc : elem_sample_comparator (arr (pr - 1)) pivot < 0
        · rw [if_pos hc]
          have hne : pl < pr - 1 := by
            by_contra hcon
            have hpe : pl = pr - 1 := by omega
            rw [hpe] at hpl
            omega
          have hspec := ih (swapAt arr (pr - 1) pl) (pl + 1) (pr - 1) true
            (by simp at hfuel ⊢; omega) (by omega) (fun h => nomatch h)
          obtain ⟨h1, h2, h3, h4, h5, h6, h7⟩ := hspec
          refine ⟨h1, by omega, by omega, ?_, ?_, ?_, ?_⟩
          · intro k hk
            rw [h4 k (by omega), swapAt_apply, if_neg (by omega), if_neg (by omega)]
          · have hmid : elems (partLoop pivot fuel (swapAt arr (pr - 1) pl)
                (pl + 1) (pr - 1) true).1 pl (pr - pl)
                = elems (swapAt arr (pr - 1) pl) pl (pr - pl) := by
              refine elems_eq_local _ _ (pl + 1) ((pr - 1) - (pl + 1))
                ⟨by omega, by omega⟩
                (fun k hk => h4 k (by omega)) h5
            rw [hmid]
            exact elems_o_memswap arr (pr - 1) pl pl (pr - pl) true
              ⟨by omega, by omega⟩ ⟨by omega, by omega⟩
          · intro k hk1 hk2
            by_cases hkp : k = pl
            · rw [hkp, h4 pl (Or.inl (by omega)), swapAt_apply,
                if_neg (by omega), if_pos rfl]
              omega
            · exact h6 k (by omega) hk2
          · intro k hk1 hk2
            by_cases hke : k = pr - 1
            · rw [hke, h4 (pr - 1) (Or.inr (by omega)), swapAt_apply, if_pos rfl]
              omega
            · exact h7 k (by omega) (by omega)
        · rw [if_neg hc]
          have hspec := ih arr pl (pr - 1) false
            (by simp at hfuel ⊢; omega) (by omega) (fun _ => hpl)
          obtain ⟨h1, h2, h3, h4, h5, h6, h7⟩ := hspec
          refine ⟨h1, h2, by omega, ?_, ?_, h6, ?_⟩
          · intro k hk
            exact h4 k (by omega)
          · refine elems_eq_local _ _ pl ((pr - 1) - pl)
              ⟨by omega, by omega⟩ (fun k hk => h4 k (by omega)) h5
          · intro k hk1 hk2
            by_cases hke : k = pr - 1
            · rw [hke, h4 (pr - 1) (Or.inr (by omega))]
              omega
            · exact h7 k hk1 (by omega)
    · rw [if_neg hlt]
      have hpp : pl = pr := by omega
      exact ⟨hpp, le_refl _, le_refl _, fun k _ => rfl, rfl,
        fun k h1 h2 => absurd (show k < pl from h2) (not_lt.mpr h1),
        fun k h1 h2 => absurd h2 (not_lt.mpr (show pr ≤ k from h1))⟩

/-- One worker's role in a `distributed_quickselect_helper` round
(nonoblivious.c:280-350): the master skips its own pivot slot
(`partition_left = left + 1`), runs the partition loop, then swaps the pivot
record into place and decrements `partition_right`; a non-master partitions
its whole slice `[left, right)`. -/
def partitionWorker (pivot : Elem) (arr : Nat → Elem) (left right : Nat)
    (isMaster : Bool) : (Nat → Elem) × Nat × Nat :=
  if isMaster then
    (swapAt (partLoop pivot (2 * (right - (left + 1)) + 1) arr
          (left + 1) right true).1
        ((partLoop pivot (2 * (right - (left + 1)) + 1) arr
          (left + 1) right true).2.2 - 1) left,
      (partLoop pivot (2 * (right - (left + 1)) + 1) arr
        (left + 1) right true).2.1,
      (partLoop pivot (2 * (right - (left + 1)) + 1) arr
        (left + 1) right true).2.2 - 1)
  else
    partLoop pivot (2 * (right - left) + 1) arr left right true

/-- Postcondition of one worker's partition round: `r.2.1` is the returned
`partition_left`, `r.2.2` the returned `partition_right`. -/
def PWSpec (pivot : Elem) (arr : Nat → Elem) (left right : Nat)
    (isMaster : Bool) (r : (Nat → Elem) × Nat × Nat) : Prop :=
  r.2.1 = r.2.2 + (if isMaster then 1 else 0)
    ∧ left ≤ r.2.2 ∧ r.2.2 ≤ right ∧ r.2.1 ≤ right
    ∧ (∀ k, k < left ∨ right ≤ k → r.1 k = arr k)
    ∧ elems r.1 left (right - left) = elems arr left (right - left)
    ∧ (∀ k, left ≤ k → k < r.2.2 → elem_sample_comparator (r.1 k) pivot ≤ 0)
    ∧ (∀ k, r.2.2 ≤ k → k < right → 0 ≤ elem_sample_comparator (r.1 k) pivot)
    ∧ (isMaster = true → elem_sample_comparator (r.1 r.2.2) pivot = 0)

theorem partitionWorker_spec (pivot : Elem) (arr : Nat → Elem)
    (left right : Nat) (isMaster : Bool) (hlr : left ≤ right)
    (hm : isMaster = true →
      left < right ∧ elem_sample_comparator (arr left) pivot = 0) :
    PWSpec pivot arr left right isMaster
      (partitionWorker pivot arr left right isMaster) := by
  cases isMaster with
  | false =>
    have hs := partLoop_spec pivot (2 * (right - left) + 1) arr left right true
      (by simp) hlr (fun h => nomatch h)
    obtain ⟨h1, h2, h3, h4, h5, h6, h7⟩ := hs
    unfold partitionWorker
    rw [if_neg (by simp)]
    refine ⟨by simp; omega, by omega, h3, by omega, h4, h5, ?_, h7,
      fun h => nomatch h⟩
    intro k hk1 hk2
    exact h6 k hk1 (by omega)
  | true =>
    obtain ⟨hlr2, hcmp⟩ := hm rfl
    have hs := partLoop_spec pivot (2 * (right - (left + 1)) + 1) arr
      (left + 1) right true (by simp) (by omega) (fun h => nomatch h)
    obtain ⟨h1, h2, h3, h4, h5, h6, h7⟩ := hs
    unfold partitionWorker
    rw [if_pos rfl]
    unfold PWSpec
    dsimp only
    refine ⟨by simp; omega, by omega, by omega, by omega, ?_, ?_, ?_, ?_, ?_⟩
    · intro k hk
      rw [swapAt_apply, if_neg (by omega), if_neg (by omega)]
      exact h4 k (by omega)
    · have hmid : elems (swapAt (partLoop pivot (2 * (right - (left + 1)) + 1)
          arr (left + 1) right true).1
          ((partLoop pivot (2 * (right - (left + 1)) + 1)
            arr (left + 1) right true).2.2 - 1) left) left (right - left)
          = elems (partLoop pivot (2 * (right - (left + 1)) + 1)
              arr (left + 1) right true).1 left (right - left) :=
        elems_o_memswap _ _ left left (right - left) true
          ⟨by omega, by omega⟩ ⟨by omega, by omega⟩
      rw [hmid]
      exact elems_eq_local _ _ (left + 1) (right - (left + 1))
        ⟨by omega, by omega⟩ (fun k hk => h4 k (by omega)) h5
    · intro k hk1 hk2
      by_cases hke : k = left
      · rw [hke, swapAt_apply, if_neg (by omega), if_pos rfl]
        exact h6 _ (by omega) (by omega)
      · rw [swapAt_apply, if_neg (by omega), if_neg hke]
        exact h6 k (by omega) (by omega)
    · intro k hk1 hk2
      by_cases hke : k = (partLoop pivot (2 * (right - (left + 1)) + 1)
          arr (left + 1) right true).2.2 - 1
      · rw [hke, swapAt_apply, if_pos rfl, h4 left (Or.inl (by omega))]
        omega
      · rw [swapAt_apply, if_neg hke, if_neg (by omega)]
        exact h7 k (by omega) hk2
    · intro _
      rw [swapAt_apply, if_pos rfl, h4 left (Or.inl (by omega))]
      exact hcmp

theorem esc_self (a : Elem) : elem_sample_comparator a a = 0 := by
  unfold elem_sample_comparator
  split_ifs <;> omega

/- Region-count helpers. -/

theorem countP_region_le {α : Type} (p : α → Prop) [DecidablePred p]
    (f : Nat → α) (a l : Nat) : Multiset.countP p (elems f a l) ≤ l :=
  (Multiset.countP_le_card p _).trans (le_of_eq (elems_card f a l))

theorem countP_region_zero {α : Type} (p : α → Prop) [DecidablePred p]
    {f : Nat → α} {a l : Nat} (h : ∀ i, a ≤ i → i < a + l → ¬ p (f i)) :
    Multiset.countP p (elems f a l) = 0 := by
  refine Multiset.countP_eq_zero.mpr ?_
  intro e he
  obtain ⟨i, hi1, hi2, hie⟩ := elems_mem he
  rw [hie]
  exact h i hi1 hi2

theorem countP_region_full {α : Type} (p : α → Prop) [DecidablePred p]
    {f : Nat → α} {a l : Nat} (h : ∀ i, a ≤ i → i < a + l → p (f i)) :
    Multiset.countP p (elems f a l) = l := by
  rw [Multiset.countP_eq_card.mpr, elems_card]
  intro e he
  obtain ⟨i, hi1, hi2, hie⟩ := elems_mem he
  rw [hie]
  exact h i hi1 hi2

/- One round of `distributed_quickselect_helper` across the cluster
(nonoblivious.c:211-450), in lockstep over all `W` workers.  Worker `w`
holds array `arrs w` with live window `wins w = (left_w, right_w)`. -/

/-- The round's pivot: the first record of the master's slice
(nonoblivious.c:266-270). -/
def roundPivot (arrs : Nat → Nat → Elem) (wins : Nat → Nat × Nat)
    (master : Nat) : Elem :=
  arrs master (wins master).1

/-- Worker `w`'s partition result for the round. -/
def roundPart (arrs : Nat → Nat → Elem) (wins : Nat → Nat × Nat)
    (master : Nat) (w : Nat) : (Nat → Elem) × Nat × Nat :=
  partitionWorker (roundPivot arrs wins master) (arrs w) (wins w).1 (wins w).2
    (w == master)

/-- All workers' arrays after the round's partitions. -/
def roundArrs (W : Nat) (arrs : Nat → Nat → Elem) (wins : Nat → Nat × Nat)
    (master : Nat) (w : Nat) : Nat → Elem :=
  if w < W then (roundPart arrs wins master w).1 else arrs w

/-- `cur_pivot`: the sum of all workers' `partition_right` values
(nonoblivious.c:352-377). -/
def roundCur (W : Nat) (arrs : Nat → Nat → Elem) (wins : Nat → Nat × Nat)
    (master : Nat) : Nat :=
  Finset.sum (Finset.range W)
    (fun w => (roundPart arrs wins master w).2.2)

/-- The lockstep embedding of `distributed_quickselect_helper`
(nonoblivious.c:211-450).  The master is the lowest-ranked worker with a
non-empty slice (nonoblivious.c:221-262); `none` models an error return
(all slices empty, or recursion deeper than `fuel` — the code has no fuel,
so every terminating error-free run is reflected by a large enough fuel).
`bsearch_ge` on the sorted target list (util.h, absent from src/) is
modelled from the spec as the first position whose target is not below
`cur`, i.e. via `takeWhile`/`dropWhile`.  On a found target the recorded
entry is the pivot sample together with each worker's `partition_right`
(nonoblivious.c:420-425). -/
def qsHelper (W : Nat) : Nat → (Nat → Nat → Elem) → (Nat → Nat × Nat) →
    List Nat → Option ((Nat → Nat → Elem) × List (Elem × (Nat → Nat)))
  | 0, _, _, _ => none
  | fuel + 1, arrs, wins, targets =>
    if targets.isEmpty then some (arrs, [])
    else
      match (List.range W).find? (fun w => decide ((wins w).1 < (wins w).2)) with
      | none => none
      | some master =>
        match qsHelper W fuel (roundArrs W arrs wins master)
            (fun w => ((wins w).1, (roundPart arrs wins master w).2.2))
            (targets.takeWhile
              (fun t => decide (t < roundCur W arrs wins master))) with
        | none => none
        | some (arrs3, outL) =>
          match qsHelper W fuel arrs3
              (fun w => ((roundPart arrs wins master w).2.1, (wins w).2))
              (if (targets.dropWhile
                    (fun t => decide (t < roundCur W arrs wins master))).head?
                  == some (roundCur W arrs wins master)
               then (targets.dropWhile
                      (fun t => decide (t < roundCur W arrs wins master))).tail
               else targets.dropWhile
                      (fun t => decide (t < roundCur W arrs wins master))) with
          | none => none
          | some (arrs4, outR) =>
            some (arrs4,
              outL
                ++ (if (targets.dropWhile
                        (fun t => decide (t < roundCur W arrs wins master))).head?
                      == some (roundCur W arrs wins master)
                    then [(roundPivot arrs wins master,
                           fun w => (roundPart arrs wins master w).2.2)]
                    else [])
                ++ outR)

/-- Embedding of `distributed_quickselect` (nonoblivious.c:457-470): the
helper started on each worker's whole slice. -/
def distributed_quickselect (W fuel : Nat) (arrs : Nat → Nat → Elem)
    (lens : Nat → Nat) (targets : List Nat) :
    Option ((Nat → Nat → Elem) × List (Elem × (Nat → Nat))) :=
  qsHelper W fuel arrs (fun w => (0, lens w)) targets

/-- The cross-worker window invariant of the quickselect recursion:
windows are within bounds, records left of a window are not above every
in-window record anywhere, records right of a window are not below them. -/
def WinInv (W : Nat) (arrs : Nat → Nat → Elem) (lens : Nat → Nat)
    (wins : Nat → Nat × Nat) : Prop :=
  ∀ w, w < W →
    ((wins w).1 ≤ (wins w).2 ∧ (wins w).2 ≤ lens w)
    ∧ (∀ i, i < (wins w).1 → ∀ w', w' < W → ∀ j, (wins w').1 ≤ j →
        j < (wins w').2 →
        elem_sample_comparator (arrs w i) (arrs w' j) ≤ 0)
    ∧ (∀ i, (wins w).2 ≤ i → i < lens w → ∀ w', w' < W → ∀ j,
        (wins w').1 ≤ j → j < (wins w').2 →
        elem_sample_comparator (arrs w' j) (arrs w i) ≤ 0)

/-- What one output entry `(sample, idxs)` for target rank `t` promises about
the final arrays: the global strict count is at most `t`, the global
non-strict count at least `t`, and on each worker the records below the
sample end by position `idxs w` (everything before it compares `≤ 0`,
everything from it on compares `≥ 0`). -/
def QSPost (W : Nat) (lens : Nat → Nat) (arrs : Nat → Nat → Elem)
    (t : Nat) (ent : Elem × (Nat → Nat)) : Prop :=
  gCountLt W arrs lens ent.1 ≤ t
    ∧ t ≤ gCountLe W arrs lens ent.1
    ∧ ∀ w, w < W →
        ent.2 w ≤ lens w
        ∧ (∀ p, p < ent.2 w →
            elem_sample_comparator (arrs w p) ent.1 ≤ 0)
        ∧ (∀ p, ent.2 w ≤ p → p < lens w →
            0 ≤ elem_sample_comparator (arrs w p) ent.1)

/-- `QSPost` is stable under later mutations confined, on each worker, to a
window lying entirely at or after the recorded index. -/
theorem QSPost_stable_right (W : Nat) (lens : Nat → Nat)
    {f g : Nat → Nat → Elem} (mreg : Nat → Nat × Nat) (t : Nat)
    (ent : Elem × (Nat → Nat))
    (hmw : ∀ w, w < W → (mreg w).1 ≤ (mreg w).2 ∧ (mreg w).2 ≤ lens w)
    (hidx : ∀ w, w < W → ent.2 w ≤ (mreg w).1)
    (hframe : ∀ w, w < W → ∀ k, k < (mreg w).1 ∨ (mreg w).2 ≤ k →
      g w k = f w k)
    (helems : ∀ w, w < W →
      elems (g w) (mreg w).1 ((mreg w).2 - (mreg w).1)
        = elems (f w) (mreg w).1 ((mreg w).2 - (mreg w).1))
    (h : QSPost W lens f t ent) : QSPost W lens g t ent := by
  obtain ⟨hc1, hc2, hc3⟩ := h
  have hfull : ∀ w, w < W → elems (g w) 0 (lens w) = elems (f w) 0 (lens w) := by
    intro w hw
    refine elems_eq_local _ _ (mreg w).1 ((mreg w).2 - (mreg w).1)
      ⟨Nat.zero_le _, by have := hmw w hw; omega⟩
      (fun k hk => hframe w hw k (by have := hmw w hw; omega))
      (helems w hw)
  have hlt : gCountLt W g lens ent.1 = gCountLt W f lens ent.1 := by
    unfold gCountLt
    refine Finset.sum_congr rfl ?_
    intro w hwm
    exact countLtS_congr _ (hfull w (Finset.mem_range.mp hwm))
  have hle : gCountLe W g lens ent.1 = gCountLe W f lens ent.1 := by
    unfold gCountLe
    refine Finset.sum_congr rfl ?_
    intro w hwm
    exact countLeS_congr _ (hfull w (Finset.mem_range.mp hwm))
  refine ⟨by omega, by omega, ?_⟩
  intro w hw
  obtain ⟨ha, hb, hc⟩ := hc3 w hw
  refine ⟨ha, ?_, ?_⟩
  · intro p hp
    rw [hframe w hw p (Or.inl (by have := hidx w hw; omega))]
    exact hb p hp
  · intro p hp1 hp2
    by_cases hin : (mreg w).1 ≤ p ∧ p < (mreg w).2
    · exact region_transfer (Q := fun e => 0 ≤ elem_sample_comparator e ent.1)
        (helems w hw)
        (fun i h1 h2 => hc i (by have := hidx w hw; omega)
          (by have := hmw w hw; omega)) p hin.1 hin.2
    · rw [hframe w hw p (by omega)]
      exact hc p hp1 hp2

/-- `QSPost` is stable under later mutations confined, on each worker, to a
window lying entirely before the recorded index. -/
theorem QSPost_stable_left (W : Nat) (lens : Nat → Nat)
    {f g : Nat → Nat → Elem} (mreg : Nat → Nat × Nat) (t : Nat)
    (ent : Elem × (Nat → Nat))
    (hmw : ∀ w, w < W → (mreg w).1 ≤ (mreg w).2 ∧ (mreg w).2 ≤ lens w)
    (hidx : ∀ w, w < W → (mreg w).2 ≤ ent.2 w)
    (hframe : ∀ w, w < W → ∀ k, k < (mreg w).1 ∨ (mreg w).2 ≤ k →
      g w k = f w k)
    (helems : ∀ w, w < W →
      elems (g w) (mreg w).1 ((mreg w).2 - (mreg w).1)
        = elems (f w) (mreg w).1 ((mreg w).2 - (mreg w).1))
    (h : QSPost W lens f t ent) : QSPost W lens g t ent := by
  obtain ⟨hc1, hc2, hc3⟩ := h
  have hfull : ∀ w, w < W → elems (g w) 0 (lens w) = elems (f w) 0 (lens w) := by
    intro w hw
    refine elems_eq_local _ _ (mreg w).1 ((mreg w).2 - (mreg w).1)
      ⟨Nat.zero_le _, by have := hmw w hw; omega⟩
      (fun k hk => hframe w hw k (by have := hmw w hw; omega))
      (helems w hw)
  have hlt : gCountLt W g lens ent.1 = gCountLt W f lens ent.1 := by
    unfold gCountLt
    refine Finset.sum_congr rfl ?_
    intro w hwm
    exact countLtS_congr _ (hfull w (Finset.mem_range.mp hwm))
  have hle : gCountLe W g lens ent.1 = gCountLe W f lens ent.1 := by
    unfold gCountLe
    refine Finset.sum_congr rfl ?_
    intro w hwm
    exact countLeS_congr _ (hfull w (Finset.mem_range.mp hwm))
  refine ⟨by omega, by omega, ?_⟩
  intro w hw
  obtain ⟨ha, hb, hc⟩ := hc3 w hw
  refine ⟨ha, ?_, ?_⟩
  · intro p hp
    by_cases hin : (mreg w).1 ≤ p ∧ p < (mreg w).2
    · exact region_transfer (Q := fun e => elem_sample_comparator e ent.1 ≤ 0)
        (helems w hw)
        (fun i h1 h2 => hb i (by have := hidx w hw; omega)) p hin.1 hin.2
    · rw [hframe w hw p (by omega)]
      exact hb p hp
  · intro p hp1 hp2
    rw [hframe w hw p (Or.inr (by have := hidx w hw; omega))]
    exact hc p hp1 hp2

theorem roundPW (W : Nat) (lens : Nat → Nat) (arrs : Nat → Nat → Elem)
    (wins : Nat → Nat × Nat) (master : Nat)
    (hmlt : (wins master).1 < (wins master).2)
    (hinv : WinInv W arrs lens wins) (w : Nat) (hw : w < W) :
    PWSpec (roundPivot arrs wins master) (arrs w) (wins w).1 (wins w).2
      (w == master) (roundPart arrs wins master w) := by
  refine partitionWorker_spec _ _ _ _ _ ((hinv w hw).1.1) ?_
  intro hb
  have hwm : w = master := beq_iff_eq.mp hb
  subst hwm
  exact ⟨hmlt, esc_self _⟩

theorem round_window_transfer (W : Nat) (lens : Nat → Nat)
    (arrs : Nat → Nat → Elem) (wins : Nat → Nat × Nat) (master : Nat)
    (hmlt : (wins master).1 < (wins master).2)
    (hinv : WinInv W arrs lens wins) (w : Nat) (hw : w < W) (j : Nat)
    (hj1 : (wins w).1 ≤ j) (hj2 : j < (wins w).2) :
    ∃ j0, (wins w).1 ≤ j0 ∧ j0 < (wins w).2
      ∧ (roundPart arrs wins master w).1 j = arrs w j0 := by
  obtain ⟨h1, h2, h3, h4, h5, h6, h7, h8, h9⟩ :=
    roundPW W lens arrs wins master hmlt hinv w hw
  have hm : (roundPart arrs wins master w).1 j
      ∈ elems (arrs w) (wins w).1 ((wins w).2 - (wins w).1) := by
    rw [← h6]
    exact mem_elems _ (wins w).1 ((wins w).2 - (wins w).1) j hj1 (by omega)
  obtain ⟨j0, hj01, hj02, hj0e⟩ := elems_mem hm
  exact ⟨j0, hj01, by omega, hj0e⟩

theorem round_countLt (W : Nat) (lens : Nat → Nat) (arrs : Nat → Nat → Elem)
    (wins : Nat → Nat × Nat) (master : Nat) (hmW : master < W)
    (hmlt : (wins master).1 < (wins master).2)
    (hinv : WinInv W arrs lens wins) (w : Nat) (hw : w < W) :
    countLtS (roundArrs W arrs wins master w) (lens w)
        (roundPivot arrs wins master)
      ≤ (roundPart arrs wins master w).2.2 := by
  obtain ⟨⟨hab, hbl⟩, hOL, hOR⟩ := hinv w hw
  obtain ⟨h1, h2, h3, h4, h5, h6, h7, h8, h9⟩ :=
    roundPW W lens arrs wins master hmlt hinv w hw
  have harr : roundArrs W arrs wins master w
      = (roundPart arrs wins master w).1 := by
    unfold roundArrs
    rw [if_pos hw]
  rw [harr]
  unfold countLtS
  rw [elems_split_at _ 0 (lens w) (roundPart arrs wins master w).2.2
    (by omega), Multiset.countP_add]
  have hz : Multiset.countP
      (fun e => elem_sample_comparator e (roundPivot arrs wins master) < 0)
      (elems (roundPart arrs wins master w).1
        (0 + (roundPart arrs wins master w).2.2)
        (lens w - (roundPart arrs wins master w).2.2)) = 0 := by
    refine countP_region_zero _ ?_
    intro i hi1 hi2
    by_cases hir : i < (wins w).2
    · have := h8 i (by omega) hir
      omega
    · have hfr : (roundPart arrs wins master w).1 i = arrs w i :=
        h5 i (Or.inr (by omega))
      rw [hfr]
      have hor := hOR i (by omega) (by omega) master hmW (wins master).1
        (le_refl _) hmlt
      rw [esc_lt_iff]
      rw [esc_le_iff] at hor
      unfold roundPivot
      unfold lexLe at hor
      unfold elemLt
      omega
  rw [hz]
  have hfst := countP_region_le
    (fun e => elem_sample_comparator e (roundPivot arrs wins master) < 0)
    (roundPart arrs wins master w).1 0 (roundPart arrs wins master w).2.2
  omega

theorem round_countLe (W : Nat) (lens : Nat → Nat) (arrs : Nat → Nat → Elem)
    (wins : Nat → Nat × Nat) (master : Nat) (hmW : master < W)
    (hmlt : (wins master).1 < (wins master).2)
    (hinv : WinInv W arrs lens wins) (w : Nat) (hw : w < W) :
    (roundPart arrs wins master w).2.2
      ≤ countLeS (roundArrs W arrs wins master w) (lens w)
          (roundPivot arrs wins master) := by
  obtain ⟨⟨hab, hbl⟩, hOL, hOR⟩ := hinv w hw
  obtain ⟨h1, h2, h3, h4, h5, h6, h7, h8, h9⟩ :=
    roundPW W lens arrs wins master hmlt hinv w hw
  have harr : roundArrs W arrs wins master w
      = (roundPart arrs wins master w).1 := by
    unfold roundArrs
    rw [if_pos hw]
  rw [harr]
  unfold countLeS
  rw [elems_split_at _ 0 (lens w) (roundPart arrs wins master w).2.2
    (by omega), Multiset.countP_add]
  have hfull : Multiset.countP
      (fun e => elem_sample_comparator e (roundPivot arrs wins master) ≤ 0)
      (elems (roundPart arrs wins master w).1 0
        (roundPart arrs wins master w).2.2)
      = (roundPart arrs wins master w).2.2 := by
    refine countP_region_full _ ?_
    intro i hi1 hi2
    by_cases hil : i < (wins w).1
    · have hfr : (roundPart arrs wins master w).1 i = arrs w i :=
        h5 i (Or.inl hil)
      rw [hfr]
      exact hOL i hil master hmW (wins master).1 (le_refl _) hmlt
    · exact h7 i (by omega) (by omega)
  omega

theorem round_mid_post (W : Nat) (lens : Nat → Nat) (arrs : Nat → Nat → Elem)
    (wins : Nat → Nat × Nat) (master : Nat) (hmW : master < W)
    (hmlt : (wins master).1 < (wins master).2)
    (hinv : WinInv W arrs lens wins) :
    QSPost W lens (roundArrs W arrs wins master)
      (roundCur W arrs wins master)
      (roundPivot arrs wins master,
        fun w => (roundPart arrs wins master w).2.2) := by
  unfold QSPost
  dsimp only
  refine ⟨?_, ?_, ?_⟩
  · unfold gCountLt roundCur
    refine Finset.sum_le_sum ?_
    intro w hwm
    exact round_countLt W lens arrs wins master hmW hmlt hinv w
      (Finset.mem_range.mp hwm)
  · unfold gCountLe roundCur
    refine Finset.sum_le_sum ?_
    intro w hwm
    exact round_countLe W lens arrs wins master hmW hmlt hinv w
      (Finset.mem_range.mp hwm)
  · intro w hw
    obtain ⟨⟨hab, hbl⟩, hOL, hOR⟩ := hinv w hw
    obtain ⟨h1, h2, h3, h4, h5, h6, h7, h8, h9⟩ :=
      roundPW W lens arrs wins master hmlt hinv w hw
    have harr : roundArrs W arrs wins master w
        = (roundPart arrs wins master w).1 := by
      unfold roundArrs
      rw [if_pos hw]
    rw [harr]
    refine ⟨by omega, ?_, ?_⟩
    · intro p hp
      by_cases hpl : p < (wins w).1
      · rw [h5 p (Or.inl hpl)]
        exact hOL p hpl master hmW (wins master).1 (le_refl _) hmlt
      · exact h7 p (by omega) (by omega)
    · intro p hp1 hp2
      by_cases hpr : p < (wins w).2
      · exact h8 p hp1 hpr
      · rw [h5 p (Or.inr (by omega)), esc_ge_iff]
        exact (esc_le_iff _ _).mp
          (hOR p (by omega) hp2 master hmW (wins master).1 (le_refl _) hmlt)

theorem round_inv_left (W : Nat) (lens : Nat → Nat) (arrs : Nat → Nat → Elem)
    (wins : Nat → Nat × Nat) (master : Nat) (hmW : master < W)
    (hmlt : (wins master).1 < (wins master).2)
    (hinv : WinInv W arrs lens wins) :
    WinInv W (roundArrs W arrs wins master) lens
      (fun w => ((wins w).1, (roundPart arrs wins master w).2.2)) := by
  intro w hw
  dsimp only
  obtain ⟨⟨hab, hbl⟩, hOL, hOR⟩ := hinv w hw
  obtain ⟨h1, h2, h3, h4, h5, h6, h7, h8, h9⟩ :=
    roundPW W lens arrs wins master hmlt hinv w hw
  have harr : roundArrs W arrs wins master w
      = (roundPart arrs wins master w).1 := by
    unfold roundArrs
    rw [if_pos hw]
  refine ⟨⟨h2, by omega⟩, ?_, ?_⟩
  · intro i hi w' hw' j hj1 hj2
    obtain ⟨g1, g2, g3, g4, g5, g6, g7, g8, g9⟩ :=
      roundPW W lens arrs wins master hmlt hinv w' hw'
    have harr' : roundArrs W arrs wins master w'
        = (roundPart arrs wins master w').1 := by
      unfold roundArrs
      rw [if_pos hw']
    rw [harr, harr', h5 i (Or.inl hi)]
    obtain ⟨j0, hj01, hj02, hj0e⟩ := round_window_transfer W lens arrs wins
      master hmlt hinv w' hw' j hj1 (by omega)
    rw [hj0e]
    exact hOL i hi w' hw' j0 hj01 hj02
  · intro i hi1 hi2 w' hw' j hj1 hj2
    obtain ⟨g1, g2, g3, g4, g5, g6, g7, g8, g9⟩ :=
      roundPW W lens arrs wins master hmlt hinv w' hw'
    have harr' : roundArrs W arrs wins master w'
        = (roundPart arrs wins master w').1 := by
      unfold roundArrs
      rw [if_pos hw']
    rw [harr, harr']
    by_cases hir : i < (wins w).2
    · have hv1 := h8 i hi1 hir
      have hv2 := g7 j hj1 hj2
      rw [esc_le_iff]
      rw [esc_ge_iff] at hv1
      rw [esc_le_iff] at hv2
      exact lexLe_trans hv2 hv1
    · rw [h5 i (Or.inr (by omega))]
      obtain ⟨j0, hj01, hj02, hj0e⟩ := round_window_transfer W lens arrs wins
        master hmlt hinv w' hw' j hj1 (by omega)
      rw [hj0e]
      exact hOR i (by omega) hi2 w' hw' j0 hj01 hj02

theorem round_inv_right (W : Nat) (lens : Nat → Nat)
    (arrs : Nat → Nat → Elem) (wins : Nat → Nat × Nat) (master : Nat)
    (arrs3 : Nat → Nat → Elem) (hmW : master < W)
    (hmlt : (wins master).1 < (wins master).2)
    (hinv : WinInv W arrs lens wins)
    (hLf : ∀ w, w < W → ∀ k,
      k < (wins w).1 ∨ (roundPart arrs wins master w).2.2 ≤ k →
      arrs3 w k = roundArrs W arrs wins master w k)
    (hLe : ∀ w, w < W →
      elems (arrs3 w) (wins w).1
          ((roundPart arrs wins master w).2.2 - (wins w).1)
        = elems (roundArrs W arrs wins master w) (wins w).1
            ((roundPart arrs wins master w).2.2 - (wins w).1)) :
    WinInv W arrs3 lens
      (fun w => ((roundPart arrs wins master w).2.1, (wins w).2)) := by
  intro w hw
  dsimp only
  obtain ⟨⟨hab, hbl⟩, hOL, hOR⟩ := hinv w hw
  obtain ⟨h1, h2, h3, h4, h5, h6, h7, h8, h9⟩ :=
    roundPW W lens arrs wins master hmlt hinv w hw
  have harr : roundArrs W arrs wins master w
      = (roundPart arrs wins master w).1 := by
    unfold roundArrs
    rw [if_pos hw]
  refine ⟨⟨h4, hbl⟩, ?_, ?_⟩
  · intro i hi w' hw' j hj1 hj2
    obtain ⟨g1, g2, g3, g4, g5, g6, g7, g8, g9⟩ :=
      roundPW W lens arrs wins master hmlt hinv w' hw'
    have harr' : roundArrs W arrs wins master w'
        = (roundPart arrs wins master w').1 := by
      unfold roundArrs
      rw [if_pos hw']
    have hv2frame : arrs3 w' j = (roundPart arrs wins master w').1 j := by
      rw [hLf w' hw' j (Or.inr (by omega)), harr']
    rw [hv2frame, esc_le_iff]
    have hv2 : lexLe (roundPivot arrs wins master)
        ((roundPart arrs wins master w').1 j) :=
      (esc_ge_iff _ _).mp (g8 j (by omega) hj2)
    have hv1 : lexLe (arrs3 w i) (roundPivot arrs wins master) := by
      by_cases hil : i < (wins w).1
      · have hfr : arrs3 w i = arrs w i := by
          rw [hLf w hw i (Or.inl hil), harr, h5 i (Or.inl hil)]
        rw [hfr]
        exact (esc_le_iff _ _).mp
          (hOL i hil master hmW (wins master).1 (le_refl _) hmlt)
      · by_cases hip : i < (roundPart arrs wins master w).2.2
        · refine region_transfer
            (Q := fun e => lexLe e (roundPivot arrs wins master))
            (hLe w hw) ?_ i (by omega) hip
          intro k hk1 hk2
          rw [harr]
          exact (esc_le_iff _ _).mp (h7 k hk1 hk2)
        · cases hbm : (w == master) with
          | false =>
            rw [hbm] at h1
            simp at h1
            omega
          | true =>
            rw [hbm] at h1
            simp at h1
            have hie : i = (roundPart arrs wins master w).2.2 := by omega
            have hfr : arrs3 w i = (roundPart arrs wins master w).1 i := by
              rw [hLf w hw i (Or.inr (by omega)), harr]
            rw [hfr, hie]
            exact (esc_le_iff _ _).mp (le_of_eq (h9 hbm))
    exact lexLe_trans hv1 hv2
  · intro i hi1 hi2 w' hw' j hj1 hj2
    obtain ⟨g1, g2, g3, g4, g5, g6, g7, g8, g9⟩ :=
      roundPW W lens arrs wins master hmlt hinv w' hw'
    have harr' : roundArrs W arrs wins master w'
        = (roundPart arrs wins master w').1 := by
      unfold roundArrs
      rw [if_pos hw']
    have hv2frame : arrs3 w' j = (roundPart arrs wins master w').1 j := by
      rw [hLf w' hw' j (Or.inr (by omega)), harr']
    have hv1frame : arrs3 w i = arrs w i := by
      rw [hLf w hw i (Or.inr (by omega)), harr, h5 i (Or.inr (by omega))]
    rw [hv1frame, hv2frame]
    obtain ⟨j0, hj01, hj02, hj0e⟩ := round_window_transfer W lens arrs wins
      master hmlt hinv w' hw' j (by omega) hj2
    rw [hj0e]
    exact hOR i hi1 hi2 w' hw' j0 hj01 hj02

theorem qsHelper_succ (W fuel : Nat) (arrs : Nat → Nat → Elem)
    (wins : Nat → Nat × Nat) (targets : List Nat) :
    qsHelper W (fuel + 1) arrs wins targets
      = if targets.isEmpty then some (arrs, [])
        else
          match (List.range W).find?
              (fun w => decide ((wins w).1 < (wins w).2)) with
          | none => none
          | some master =>
            match qsHelper W fuel (roundArrs W arrs wins master)
                (fun w => ((wins w).1, (roundPart arrs wins master w).2.2))
                (targets.takeWhile
                  (fun t => decide (t < roundCur W arrs wins master))) with
            | none => none
            | some (arrs3, outL) =>
              match qsHelper W fuel arrs3
                  (fun w => ((roundPart arrs wins master w).2.1, (wins w).2))
                  (if (targets.dropWhile
                        (fun t => decide (t < roundCur W arrs wins master))).head?
                      == some (roundCur W arrs wins master)
                   then (targets.dropWhile
                          (fun t => decide (t < roundCur W arrs wins master))).tail
                   else targets.dropWhile
                          (fun t => decide (t < roundCur W arrs wins master))) with
              | none => none
              | some (arrs4, outR) =>
                some (arrs4,
                  outL
                    ++ (if (targets.dropWhile
                            (fun t => decide (t < roundCur W arrs wins master))).head?
                          == some (roundCur W arrs wins master)
                        then [(roundPivot arrs wins master,
                               fun w => (roundPart arrs wins master w).2.2)]
                        else [])
                    ++ outR) := rfl

theorem qsHelper_spec (W : Nat) (lens : Nat → Nat) :
    ∀ (fuel : Nat) (arrs : Nat → Nat → Elem) (wins : Nat → Nat × Nat)
      (targets : List Nat)
      (res : (Nat → Nat → Elem) × List (Elem × (Nat → Nat))),
      qsHelper W fuel arrs wins targets = some res →
      WinInv W arrs lens wins →
      (∀ w, w < W →
        (∀ k, k < (wins w).1 ∨ (wins w).2 ≤ k → res.1 w k = arrs w k)
        ∧ elems (res.1 w) (wins w).1 ((wins w).2 - (wins w).1)
            = elems (arrs w) (wins w).1 ((wins w).2 - (wins w).1))
      ∧ (∀ w, W ≤ w → res.1 w = arrs w)
      ∧ List.Forall₂ (fun t ent => QSPost W lens res.1 t ent
            ∧ ∀ w, w < W → ent.2 w ≤ (wins w).2) targets res.2 := by
  intro fuel
  induction fuel with
  | zero =>
    intro arrs wins targets res hres hinv
    exact Option.noConfusion hres
  | succ fuel ih =>
    intro arrs wins targets res hres hinv
    rw [qsHelper_succ] at hres
    by_cases hemp : targets.isEmpty = true
    · rw [if_pos hemp] at hres
      have hr : (arrs, ([] : List (Elem × (Nat → Nat)))) = res :=
        Option.some.inj hres
      subst hr
      rw [List.isEmpty_iff.mp hemp]
      exact ⟨fun w hw => ⟨fun k hk => rfl, rfl⟩, fun w hw => rfl,
        List.Forall₂.nil⟩
    · rw [if_neg hemp] at hres
      cases hfind : (List.range W).find?
          (fun w => decide ((wins w).1 < (wins w).2)) with
      | none =>
        rw [hfind] at hres
        exact Option.noConfusion hres
      | some master =>
        rw [hfind] at hres
        dsimp only at hres
        have hmW : master < W :=
          List.mem_range.mp (List.mem_of_find?_eq_some hfind)
        have hp0 := List.find?_some hfind
        have hmlt : (wins master).1 < (wins master).2 := of_decide_eq_true hp0
        cases hq1 : qsHelper W fuel (roundArrs W arrs wins master)
            (fun w => ((wins w).1, (roundPart arrs wins master w).2.2))
            (targets.takeWhile
              (fun t => decide (t < roundCur W arrs wins master))) with
        | none =>
          rw [hq1] at hres
          exact Option.noConfusion hres
        | some r1 =>
          rw [hq1] at hres
          obtain ⟨arrs3, outL⟩ := r1
          dsimp only at hres
          cases hq2 : qsHelper W fuel arrs3
              (fun w => ((roundPart arrs wins master w).2.1, (wins w).2))
              (if (targets.dropWhile
                    (fun t => decide (t < roundCur W arrs wins master))).head?
                  == some (roundCur W arrs wins master)
               then (targets.dropWhile
                      (fun t => decide (t < roundCur W arrs wins master))).tail
               else targets.dropWhile
                      (fun t => decide (t < roundCur W arrs wins master))) with
          | none =>
            rw [hq2] at hres
            exact Option.noConfusion hres
          | some r2 =>
            rw [hq2] at hres
            obtain ⟨arrs4, outR⟩ := r2
            dsimp only at hres
            have hr : (arrs4,
                outL
                  ++ (if (targets.dropWhile
                          (fun t => decide (t < roundCur W arrs wins master))).head?
                        == some (roundCur W arrs wins master)
                      then [(roundPivot arrs wins master,
                             fun w => (roundPart arrs wins master w).2.2)]
                      else [])
                  ++ outR) = res := Option.some.inj hres
            subst hr
            dsimp only
            have hinv2 := round_inv_left W lens arrs wins master hmW hmlt hinv
            obtain ⟨hB1, hB2, hF1⟩ := ih (roundArrs W arrs wins master)
              (fun w => ((wins w).1, (roundPart arrs wins master w).2.2))
              (targets.takeWhile
                (fun t => decide (t < roundCur W arrs wins master)))
              (arrs3, outL) hq1 hinv2
            have hfr3 : ∀ w, w < W → ∀ k,
                k < (wins w).1 ∨ (roundPart arrs wins master w).2.2 ≤ k →
                arrs3 w k = roundArrs W arrs wins master w k :=
              fun w hw => (hB1 w hw).1
            have hel3 : ∀ w, w < W →
                elems (arrs3 w) (wins w).1
                    ((roundPart arrs wins master w).2.2 - (wins w).1)
                  = elems (roundArrs W arrs wins master w) (wins w).1
                      ((roundPart arrs wins master w).2.2 - (wins w).1) :=
              fun w hw => (hB1 w hw).2
            have hinv3 := round_inv_right W lens arrs wins master arrs3 hmW
              hmlt hinv hfr3 hel3
            obtain ⟨hC1, hC2, hF2⟩ := ih arrs3
              (fun w => ((roundPart arrs wins master w).2.1, (wins w).2))
              (if (targets.dropWhile
                    (fun t => decide (t < roundCur W arrs wins master))).head?
                  == some (roundCur W arrs wins master)
               then (targets.dropWhile
                      (fun t => decide (t < roundCur W arrs wins master))).tail
               else targets.dropWhile
                      (fun t => decide (t < roundCur W arrs wins master)))
              (arrs4, outR) hq2 hinv3
            have hfr4 : ∀ w, w < W → ∀ k,
                k < (roundPart arrs wins master w).2.1 ∨ (wins w).2 ≤ k →
                arrs4 w k = arrs3 w k := fun w hw => (hC1 w hw).1
            have hel4 : ∀ w, w < W →
                elems (arrs4 w) (roundPart arrs wins master w).2.1
                    ((wins w).2 - (roundPart arrs wins master w).2.1)
                  = elems (arrs3 w) (roundPart arrs wins master w).2.1
                      ((wins w).2 - (roundPart arrs wins master w).2.1) :=
              fun w hw => (hC1 w hw).2
            have hnum : ∀ w, w < W →
                (wins w).1 ≤ (roundPart arrs wins master w).2.2
                ∧ (roundPart arrs wins master w).2.2
                    ≤ (roundPart arrs wins master w).2.1
                ∧ (roundPart arrs wins master w).2.1 ≤ (wins w).2
                ∧ (wins w).2 ≤ lens w := by
              intro w hw
              obtain ⟨p1, p2, p3, p4, p5, p6, p7, p8, p9⟩ :=
                roundPW W lens arrs wins master hmlt hinv w hw
              exact ⟨p2, by omega, p4, (hinv w hw).1.2⟩
            have harrW : ∀ w, w < W → roundArrs W arrs wins master w
                = (roundPart arrs wins master w).1 := by
              intro w hw
              unfold roundArrs
              rw [if_pos hw]
            have hA2W : ∀ w, W ≤ w →
                roundArrs W arrs wins master w = arrs w := by
              intro w hw
              unfold roundArrs
              rw [if_neg (by omega)]
            have himpL : List.Forall₂ (fun t ent =>
                  QSPost W lens arrs4 t ent
                  ∧ ∀ w, w < W → ent.2 w ≤ (wins w).2)
                (targets.takeWhile
                  (fun t => decide (t < roundCur W arrs wins master)))
                outL := by
              refine List.Forall₂.imp ?_ hF1
              intro t ent h
              obtain ⟨hQ, hbd⟩ := h
              have hbd2 : ∀ w, w < W →
                  ent.2 w ≤ (roundPart arrs wins master w).2.2 := hbd
              refine ⟨QSPost_stable_right W lens
                  (fun w => ((roundPart arrs wins master w).2.1, (wins w).2))
                  t ent ?_ ?_ hfr4 hel4 hQ, ?_⟩
              · intro w hw
                dsimp only
                have := hnum w hw
                exact ⟨by omega, by omega⟩
              · intro w hw
                dsimp only
                have := hnum w hw
                have := hbd2 w hw
                omega
              · intro w hw
                have := hnum w hw
                have := hbd2 w hw
                omega
            have himpR : List.Forall₂ (fun t ent =>
                  QSPost W lens arrs4 t ent
                  ∧ ∀ w, w < W → ent.2 w ≤ (wins w).2)
                (if (targets.dropWhile
                      (fun t => decide (t < roundCur W arrs wins master))).head?
                    == some (roundCur W arrs wins master)
                 then (targets.dropWhile
                        (fun t => decide (t < roundCur W arrs wins master))).tail
                 else targets.dropWhile
                        (fun t => decide (t < roundCur W arrs wins master)))
                outR := by
              refine List.Forall₂.imp ?_ hF2
              intro t ent h
              exact ⟨h.1, h.2⟩
            have hmid : QSPost W lens arrs4 (roundCur W arrs wins master)
                  (roundPivot arrs wins master,
                    fun w => (roundPart arrs wins master w).2.2)
                ∧ ∀ w, w < W →
                    (roundPivot arrs wins master,
                      fun w => (roundPart arrs wins master w).2.2).2 w
                      ≤ (wins w).2 := by
              constructor
              · refine QSPost_stable_right W lens
                  (fun w => ((roundPart arrs wins master w).2.1, (wins w).2))
                  _ _ ?_ ?_ hfr4 hel4 ?_
                · intro w hw
                  dsimp only
                  have := hnum w hw
                  exact ⟨by omega, by omega⟩
                · intro w hw
                  dsimp only
                  have := hnum w hw
                  omega
                · refine QSPost_stable_left W lens
                    (fun w => ((wins w).1, (roundPart arrs wins master w).2.2))
                    _ _ ?_ ?_ hfr3 hel3
                    (round_mid_post W lens arrs wins master hmW hmlt hinv)
                  · intro w hw
                    dsimp only
                    have := hnum w hw
                    exact ⟨by omega, by omega⟩
                  · intro w hw
                    dsimp only
                    exact le_refl _
              · intro w hw
                dsimp only
                have := hnum w hw
                omega
            refine ⟨?_, ?_, ?_⟩
            · intro w hw
              obtain ⟨p1, p2, p3, p4, p5, p6, p7, p8, p9⟩ :=
                roundPW W lens arrs wins master hmlt hinv w hw
              constructor
              · intro k hk
                have e1 : arrs4 w k = arrs3 w k :=
                  hfr4 w hw k (by have := hnum w hw; omega)
                have e2 : arrs3 w k = roundArrs W arrs wins master w k :=
                  hfr3 w hw k (by have := hnum w hw; omega)
                rw [e1, e2, harrW w hw]
                exact p5 k hk
              · have e1 : elems (arrs4 w) (wins w).1 ((wins w).2 - (wins w).1)
                    = elems (arrs3 w) (wins w).1 ((wins w).2 - (wins w).1) := by
                  refine elems_eq_local _ _ (roundPart arrs wins master w).2.1
                    ((wins w).2 - (roundPart arrs wins master w).2.1)
                    ⟨by have := hnum w hw; omega, by have := hnum w hw; omega⟩
                    (fun k hk => hfr4 w hw k (by have := hnum w hw; omega))
                    (hel4 w hw)
                have e2 : elems (arrs3 w) (wins w).1 ((wins w).2 - (wins w).1)
                    = elems (roundArrs W arrs wins master w) (wins w).1
                        ((wins w).2 - (wins w).1) := by
                  refine elems_eq_local _ _ (wins w).1
                    ((roundPart arrs wins master w).2.2 - (wins w).1)
                    ⟨le_refl _, by have := hnum w hw; omega⟩
                    (fun k hk => hfr3 w hw k (by have := hnum w hw; omega))
                    (hel3 w hw)
                have e3 : elems (roundArrs W arrs wins master w) (wins w).1
                      ((wins w).2 - (wins w).1)
                    = elems (arrs w) (wins w).1 ((wins w).2 - (wins w).1) := by
                  rw [harrW w hw]
                  exact p6
                rw [e1, e2, e3]
            · intro w hw
              have hB2c : arrs3 w = roundArrs W arrs wins master w := hB2 w hw
              have hC2c : arrs4 w = arrs3 w := hC2 w hw
              rw [hC2c, hB2c, hA2W w hw]
            · by_cases hfnd : ((targets.dropWhile
                    (fun t => decide (t < roundCur W arrs wins master))).head?
                  == some (roundCur W arrs wins master)) = true
              · rw [List.append_assoc, if_pos hfnd]
                rw [if_pos hfnd] at himpR
                have hgt : targets.dropWhile
                      (fun t => decide (t < roundCur W arrs wins master))
                    = roundCur W arrs wins master
                      :: (targets.dropWhile
                          (fun t => decide (t < roundCur W arrs wins master))).tail := by
                  cases hG : targets.dropWhile
                      (fun t => decide (t < roundCur W arrs wins master)) with
                  | nil =>
                    rw [hG] at hfnd
                    simp at hfnd
                  | cons a l =>
                    rw [hG] at hfnd
                    simp at hfnd
                    rw [hfnd]
                    rfl
                rw [(List.takeWhile_append_dropWhile
                  (fun t => decide (t < roundCur W arrs wins master))
                  targets).symm, hgt]
                exact List.rel_append himpL (List.Forall₂.cons hmid himpR)
              · rw [List.append_assoc, if_neg hfnd]
                rw [if_neg hfnd] at himpR
                rw [(List.takeWhile_append_dropWhile
                  (fun t => decide (t < roundCur W arrs wins master))
                  targets).symm]
                exact List.rel_append himpL himpR

/-- **C6.** On successful return of `distributed_quickselect` with a sorted
list of target ranks, for every target rank `t_i` paired with output entry
`(samples[i], sample_idxs[i])`: the global number of records comparing
strictly below `samples[i]` is at most `t_i`, the global number comparing
not above it is at least `t_i`, and on each worker the records below
`samples[i]` end by local position `sample_idxs[i]` — every record before
that position compares `≤ 0` against the sample and every record from it
to the end of the slice compares `≥ 0`. -/
theorem distributed_quickselect_postcondition
    (W fuel : Nat) (arrs : Nat → Nat → Elem) (lens : Nat → Nat)
    (targets : List Nat)
    (res : (Nat → Nat → Elem) × List (Elem × (Nat → Nat)))
    (hsorted : targets.Chain' (· ≤ ·))
    (hres : distributed_quickselect W fuel arrs lens targets = some res) :
    List.Forall₂ (fun t ent =>
      (gCountLt W res.1 lens ent.1 ≤ t ∧ t ≤ gCountLe W res.1 lens ent.1)
      ∧ ∀ w, w < W →
          ent.2 w ≤ lens w
          ∧ (∀ p, p < ent.2 w →
              elem_sample_comparator (res.1 w p) ent.1 ≤ 0)
          ∧ (∀ p, ent.2 w ≤ p → p < lens w →
              0 ≤ elem_sample_comparator (res.1 w p) ent.1))
      targets res.2 := by
  have hinv0 : WinInv W arrs lens (fun w => (0, lens w)) := by
    intro w hw
    dsimp only
    refine ⟨⟨Nat.zero_le _, le_refl _⟩, ?_, ?_⟩
    · intro i hi
      exact absurd hi (Nat.not_lt_zero i)
    · intro i hi1 hi2
      exact absurd hi2 (not_lt.mpr hi1)
  obtain ⟨hB1, hB2, hF⟩ := qsHelper_spec W lens fuel arrs
    (fun w => (0, lens w)) targets res hres hinv0
  refine List.Forall₂.imp ?_ hF
  intro t ent h
  obtain ⟨⟨hc1, hc2, hc3⟩, hbd⟩ := h
  exact ⟨⟨hc1, hc2⟩, hc3⟩

/-- Witness for `distributed_quickselect_postcondition`: one worker holding
`[(key 5, orp 0), (key 3, orp 1)]`, target rank 1, fuel 4; quickselect
returns a sample with its split position, and the postcondition holds. -/
theorem distributed_quickselect_postcondition_witness :
    ∃ res, distributed_quickselect 1 4
        (fun _ i => if i = 0 then ⟨5, 0, 0⟩ else ⟨3, 1, 0⟩)
        (fun _ => 2) [1] = some res
      ∧ List.Forall₂ (fun t ent =>
          (gCountLt 1 res.1 (fun _ => 2) ent.1 ≤ t
            ∧ t ≤ gCountLe 1 res.1 (fun _ => 2) ent.1)
          ∧ ∀ w, w < 1 →
              ent.2 w ≤ 2
              ∧ (∀ p, p < ent.2 w →
                  elem_sample_comparator (res.1 w p) ent.1 ≤ 0)
              ∧ (∀ p, ent.2 w ≤ p → p < 2 →
                  0 ≤ elem_sample_comparator (res.1 w p) ent.1))
          [1] res.2 := by
  have hs : (distributed_quickselect 1 4
      (fun _ i => if i = 0 then ⟨5, 0, 0⟩ else ⟨3, 1, 0⟩)
      (fun _ => 2) [1]).isSome = true := by decide
  refine ⟨(distributed_quickselect 1 4
      (fun _ i => if i = 0 then ⟨5, 0, 0⟩ else ⟨3, 1, 0⟩)
      (fun _ => 2) [1]).get hs, (Option.some_get hs).symm, ?_⟩
  exact distributed_quickselect_postcondition 1 4
    (fun _ i => if i = 0 then ⟨5, 0, 0⟩ else ⟨3, 1, 0⟩) (fun _ => 2) [1]
    _ (List.Chain.nil) (Option.some_get hs).symm
